import Mathlib

/-!
Shallow embedding of `src/apps/web/src/wasm/bigfloat.c`, the fixed-point
arithmetic engine and Mandelbrot iteration layer of this repository.

Modelling conventions:
* a C `limb_t` (`uint32_t`) is a natural number; every operation that wraps
  in C is written with an explicit `% 2^32` (or `% 2^64` for `dlimb_t`);
  the C expression `uint32 + uint32` wraps mod `2^32` before widening, and
  the embedding reproduces that faithfully;
* the `BigFloat` struct keeps only its active limbs: `limbs` is the list
  `limbs[0] .. limbs[nlimbs-1]` (least significant first) and `nlimbs` is
  `limbs.length`; the C storage beyond the active window is never read by
  the operations covered here;
* C `double` values are modelled by `ℚ`; every concrete input used in a
  theorem below makes the corresponding C double computation exact, so the
  rational model agrees with IEEE arithmetic there;
* C strings are lists of characters; the terminating NUL acts like the end
  of the list (it stops every scanning loop, being neither a digit, `.`,
  sign, nor space).
-/

/-- The `BigFloat` struct: active limbs (little-endian) plus the sign tag
(`1`, `-1` or `0`), from bigfloat.c lines 28-32. -/
structure BigFloat where
  limbs : List ℕ
  sign : ℤ
deriving DecidableEq, Repr

/-- Value of a little-endian limb list as a natural number. -/
def limbsVal : List ℕ → ℕ
  | [] => 0
  | x :: xs => x + 2 ^ 32 * limbsVal xs

/-- `scratch[k]` (reads out of range give 0, which the embedding never
relies on: all accesses proved in range where it matters). -/
def lget (s : List ℕ) (k : ℕ) : ℕ := s.getD k 0

/-- All limbs of a list fit in 32 bits. -/
def allLt32 (s : List ℕ) : Prop := ∀ x ∈ s, x < 2 ^ 32

/-- `bf_zero` (lines 40-44): `n` zero limbs, sign `0`. -/
def bfZero (n : ℕ) : BigFloat := ⟨List.replicate n 0, 0⟩

/-- `bf_copy` (lines 49-53): replicates limbs, `nlimbs` and sign. -/
def bfCopy (a : BigFloat) : BigFloat := ⟨a.limbs, a.sign⟩

/-- The fraction-filling loop of `bf_set_d` (lines 76-87), iterating the
limb index `i` from `nlimbs - 1` down to `0` while `d > 0`.  At the top
index the 28 high bits of the extracted 32-bit chunk are OR-ed below the
integer nibble (`limbs[i] |= limb >> 4`); lower indices store the full
chunk. -/
def setDLoop (n : ℕ) (d : ℚ) (limbs : List ℕ) (i : ℕ) : List ℕ :=
  if d ≤ 0 then limbs
  else
    let d1 := d * 2 ^ 32
    let limb := (⌊d1⌋).toNat
    let d2 := d1 - (limb : ℚ)
    let limbs1 :=
      if i = n - 1 then limbs.set i (Nat.lor (lget limbs i) (limb / 2 ^ 4))
      else limbs.set i limb
    match i with
    | 0 => limbs1
    | i' + 1 => setDLoop n d2 limbs1 i'

/-- `bf_set_d` (lines 58-88): zero the value, set the sign from `d`, put
the truncated integer part in the top nibble of the most significant limb,
then fill fractional chunks downward while the residual is positive. -/
def bfSetD (d : ℚ) (n : ℕ) : BigFloat :=
  if d = 0 then bfZero n
  else
    let sgn : ℤ := if d < 0 then -1 else 1
    let a := |d|
    let ip := (⌊a⌋).toNat
    let limbs0 := (List.replicate n 0).set (n - 1) (ip % 2 ^ 32 * 2 ^ 28 % 2 ^ 32)
    ⟨setDLoop n (a - (ip : ℚ)) limbs0 (n - 1), sgn⟩

/-- The lower-limb accumulation of `bf_to_d` (lines 100-110, `else`
branch): each successive limb below the top one is added with the scale
divided by `2^32` once more.  The argument list is most-significant
first. -/
def toDRest (scale : ℚ) : List ℕ → ℚ
  | [] => 0
  | x :: xs => (x : ℚ) * (scale / 2 ^ 32) + toDRest (scale / 2 ^ 32) xs

/-- `bf_to_d` (lines 93-113): 0 for sign `0`; otherwise the top limb's
integer nibble plus its 28 fractional bits, plus the lower limbs scaled by
successive `2^-32` factors, negated for negative sign. -/
def bfToD (a : BigFloat) : ℚ :=
  if a.sign = 0 then 0
  else
    let r :=
      match a.limbs.reverse with
      | [] => 0
      | top :: rest =>
          ((top / 2 ^ 28 : ℕ) : ℚ) + ((top % 2 ^ 28 : ℕ) : ℚ) / 2 ^ 28 + toDRest 1 rest
    if a.sign < 0 then -r else r

/-- `bf_cmp_mag` (lines 119-127) on most-significant-first limb lists. -/
def cmpMagRev : List ℕ → List ℕ → ℤ
  | x :: xs, y :: ys =>
      if x < y then -1 else if y < x then 1 else cmpMagRev xs ys
  | _, _ => 0

/-- `bf_cmp_mag`: lexicographic comparison from the most significant limb. -/
def bfCmpMag (a b : BigFloat) : ℤ := cmpMagRev a.limbs.reverse b.limbs.reverse

/-- `bf_add_mag` (lines 133-145): ripple-carry addition over the active
limbs; the final carry out of the top limb is dropped. -/
def addMagLimbs : List ℕ → List ℕ → ℕ → List ℕ
  | x :: xs, y :: ys, c => (x + y + c) % 2 ^ 32 :: addMagLimbs xs ys ((x + y + c) / 2 ^ 32)
  | _, _, _ => []

/-- `bf_sub_mag` (lines 151-165): ripple-borrow subtraction, assuming
`|a| ≥ |b|` (the caller orders operands). -/
def subMagLimbs : List ℕ → List ℕ → ℕ → List ℕ
  | x :: xs, y :: ys, br =>
      let diff : ℤ := (x : ℤ) - (y : ℤ) - (br : ℤ)
      if diff < 0 then (diff + 2 ^ 32).toNat :: subMagLimbs xs ys 1
      else diff.toNat :: subMagLimbs xs ys 0
  | _, _, _ => []

/-- `bf_is_zero` (lines 170-175): every active limb is 0. -/
def bfIsZero (a : BigFloat) : Bool := a.limbs.all (· == 0)

/-- `bf_add` (lines 180-216): zero operands short-circuit to a copy of the
other; same signs add magnitudes; opposite signs compare magnitudes and
subtract the smaller from the larger, taking its sign; finally (on the
non-copy paths) an all-zero magnitude renormalizes the sign to 0. -/
def bfAdd (a b : BigFloat) : BigFloat :=
  if a.sign = 0 then bfCopy b
  else if b.sign = 0 then bfCopy a
  else
    let r :=
      if a.sign = b.sign then
        (⟨addMagLimbs a.limbs b.limbs 0, a.sign⟩ : BigFloat)
      else
        let c := bfCmpMag a b
        if c = 0 then bfZero a.limbs.length
        else if 0 < c then ⟨subMagLimbs a.limbs b.limbs 0, a.sign⟩
        else ⟨subMagLimbs b.limbs a.limbs 0, b.sign⟩
    if bfIsZero r then ⟨r.limbs, 0⟩ else r

/-- `bf_sub` (lines 221-226): copy `b` into a private local, flip the
copy's sign, and add. -/
def bfSub (a b : BigFloat) : BigFloat :=
  let negB : BigFloat := ⟨(bfCopy b).limbs, -(bfCopy b).sign⟩
  bfAdd a negB

/-- Inner loop of `bf_mul_schoolbook` (lines 240-246): adds
`a_i * b` into the scratch starting at position `pos`, rippling a 64-bit
carry; returns the updated scratch and the final carry. -/
def mulInner (ai : ℕ) : List ℕ → List ℕ → ℕ → ℕ → List ℕ × ℕ
  | [], s, _, c => (s, c)
  | bj :: bs, s, pos, c =>
      let sum := lget s pos + ai * bj + c
      mulInner ai bs (s.set pos (sum % 2 ^ 32)) (pos + 1) (sum / 2 ^ 32)

/-- Outer loop of `bf_mul_schoolbook` (lines 239-248): after each inner
pass the final carry is added (as a `uint32`, wrapping) into
`scratch[i + n]`. -/
def mulOuter : List ℕ → List ℕ → List ℕ → ℕ → ℕ → List ℕ
  | [], _, s, _, _ => s
  | ai :: arest, bs, s, i, n =>
      let p := mulInner ai bs s i 0
      let s2 := p.1.set (i + n) ((lget p.1 (i + n) + p.2 % 2 ^ 32) % 2 ^ 32)
      mulOuter arest bs s2 (i + 1) n

/-- The fixed-point extraction shared by `bf_mul_schoolbook` (lines
256-262) and `bf_sqr` (lines 338-344): limb `i` of the result is
`scratch[n+i] << 4` OR-ed with `scratch[n+i-1] >> 28`, truncated to 32
bits. -/
def extractLimbs (s : List ℕ) (n : ℕ) : List ℕ :=
  (List.range n).map fun i =>
    (lget s (n + i) * 2 ^ 4 + (if 0 < n + i then lget s (n + i - 1) / 2 ^ 28 else 0)) % 2 ^ 32

/-- `bf_mul_schoolbook` (lines 232-271). -/
def bfMulSchoolbook (a b : BigFloat) : BigFloat :=
  let n := a.limbs.length
  let s := mulOuter a.limbs b.limbs (List.replicate (2 * n + 2) 0) 0 n
  let limbs := extractLimbs s n
  let s1 : ℤ := if a.sign = b.sign then 1 else -1
  let s2 : ℤ := if a.sign = 0 ∨ b.sign = 0 then 0 else s1
  ⟨limbs, if (limbs.all (· == 0)) then 0 else s2⟩

/-- `bf_mul_karatsuba` (lines 421-425): the source falls back to
schoolbook ("Full Karatsuba requires more complex memory management"). -/
def bfMulKaratsuba (a b : BigFloat) (depth : ℕ) : BigFloat :=
  bfMulSchoolbook a b

/-- `bf_mul` (lines 288-294): dispatch on the 16-limb Karatsuba
threshold. -/
def bfMul (a b : BigFloat) : BigFloat :=
  if a.limbs.length ≤ 16 then bfMulSchoolbook a b else bfMulKaratsuba a b 0

/-- The carry-propagation `while` loop of `bf_sqr` (lines 328-333); the C
loop runs while `carry != 0 && k < 2n+2`, so the fuel is `2n+2 - k` at
entry. -/
def sqrPropagate : ℕ → List ℕ → ℕ → ℕ → List ℕ
  | 0, s, _, _ => s
  | fuel + 1, s, k, carry =>
      if carry = 0 then s
      else
        let sum := lget s k + carry
        sqrPropagate fuel (s.set k (sum % 2 ^ 32)) (k + 1) (sum / 2 ^ 32)

/-- Off-diagonal loop of `bf_sqr` (lines 317-334): each product is doubled
in 64-bit arithmetic with its top bit captured separately (`prod_hi`); the
low-limb addition `scratch[i+j] + (limb_t)prod` is a `uint32` addition and
wraps, so `sum >> 32` contributes 0 to the carry exactly as in the C. -/
def sqrInner (ai : ℕ) : List ℕ → List ℕ → ℕ → ℕ → ℕ → List ℕ
  | [], s, _, _, _ => s
  | aj :: arest, s, i, j, n =>
      let prod := ai * aj
      let prodHi := prod / 2 ^ 63
      let prod2 := prod * 2 % 2 ^ 64
      let sum := (lget s (i + j) + prod2 % 2 ^ 32) % 2 ^ 32
      let s1 := s.set (i + j) sum
      let carry := sum / 2 ^ 32 + prod2 / 2 ^ 32 + prodHi
      let s2 := sqrPropagate (2 * n + 2 - (i + j + 1)) s1 (i + j + 1) carry
      sqrInner ai arest s2 i (j + 1) n

/-- Outer loop of `bf_sqr` (lines 307-335): the diagonal term is added
with `uint32` low-limb addition (wrapping) and its carry is added into
`scratch[2i+1]` without propagation (plus an increment of `scratch[2i+2]`
if the carry exceeded 32 bits). -/
def sqrOuter : List ℕ → List ℕ → ℕ → ℕ → List ℕ
  | [], s, _, _ => s
  | ai :: arest, s, i, n =>
      let diag := ai * ai
      let sum := (lget s (2 * i) + diag % 2 ^ 32) % 2 ^ 32
      let s1 := s.set (2 * i) sum
      let carry := sum / 2 ^ 32 + diag / 2 ^ 32
      let s2 := s1.set (2 * i + 1) ((lget s1 (2 * i + 1) + carry % 2 ^ 32) % 2 ^ 32)
      let s3 := if carry / 2 ^ 32 ≠ 0 then
          s2.set (2 * i + 2) ((lget s2 (2 * i + 2) + 1) % 2 ^ 32) else s2
      let s4 := sqrInner ai arest s3 i (i + 1) n
      sqrOuter arest s4 (i + 1) n

/-- `bf_sqr` (lines 300-352). -/
def bfSqr (a : BigFloat) : BigFloat :=
  let n := a.limbs.length
  let s := sqrOuter a.limbs (List.replicate (2 * n + 2) 0) 0 n
  let limbs := extractLimbs s n
  let sgn : ℤ := if a.sign ≠ 0 then 1 else 0
  ⟨limbs, if (limbs.all (· == 0)) then 0 else sgn⟩

/-- `bf_escaped` (lines 359-370): `false` for zero active limbs, else the
double-converted magnitude-squared compared against the threshold. -/
def bfEscaped (re im : BigFloat) (threshold : ℚ) : Bool :=
  if re.limbs.length = 0 then false
  else
    let red := bfToD re
    let imd := bfToD im
    decide (red * red + imd * imd > threshold)

/-- Digit test of the parsing loops (`*p >= '0' && *p <= '9'`). -/
def isDigitCh (c : Char) : Bool := '0' ≤ c && c ≤ '9'

/-- Integer-part loop of `bf_from_str` (lines 394-398):
`int_part = int_part * 10 + (*p - '0')`. -/
def intLoop (acc : ℚ) : List Char → ℚ × List Char
  | [] => (acc, [])
  | c :: cs =>
      if isDigitCh c then intLoop (acc * 10 + ((c.toNat - '0'.toNat : ℕ) : ℚ)) cs
      else (acc, c :: cs)

/-- Fractional-part loop of `bf_from_str` (lines 403-410):
`frac += digit * frac_scale; frac_scale *= 0.1`. -/
def fracLoop (frac scale : ℚ) : List Char → ℚ × List Char
  | [] => (frac, [])
  | c :: cs =>
      if isDigitCh c then fracLoop (frac + ((c.toNat - '0'.toNat : ℕ) : ℚ) * scale) (scale / 10) cs
      else (frac, c :: cs)

/-- The sign handling of `bf_from_str` (lines 386-391): consume a leading
`-` (remembering it) or a leading `+`. -/
def signSplit : List Char → Bool × List Char
  | [] => (false, [])
  | c :: rest =>
      if c = '-' then (true, rest)
      else if c = '+' then (false, rest)
      else (false, c :: rest)

/-- The optional fraction segment of `bf_from_str` (lines 401-410): only
entered when the integer digits are followed by `.`. -/
def fracSegment : List Char → ℚ × List Char
  | '.' :: rest => fracLoop 0 (1 / 10) rest
  | rest => ((0 : ℚ), rest)

/-- `bf_from_str` (lines 376-416): skip spaces, optional sign, integer
digits, optional `.` and fraction digits, then build the value through
`bf_set_d` and negate the sign for a leading `-`. -/
def bfFromStr (str : List Char) (n : ℕ) : BigFloat :=
  let p1 := signSplit (str.dropWhile (· == ' '))
  let ints := intLoop 0 p1.2
  let fracs := fracSegment ints.2
  let r := bfSetD (ints.1 + fracs.1) n
  if p1.1 then ⟨r.limbs, -r.sign⟩ else r

/-- The doubling pass inside `mandelbrot_step` (lines 452-457): shift the
product's limbs left one bit, rippling the carry; the carry out of the top
limb is dropped. -/
def doubleLimbs : List ℕ → ℕ → List ℕ
  | [], _ => []
  | x :: xs, c => (x * 2 + c) % 2 ^ 32 :: doubleLimbs xs ((x * 2 + c) / 2 ^ 32)

/-- `mandelbrot_step` (lines 435-464): `tmp1 = zr²`, `tmp2 = zi²`,
`prod = zr*zi` doubled in place, `zi ← 2*zr*zi + ci`,
`zr ← zr² - zi² + cr`; all products use the pre-step `zr`, `zi`. -/
def mandelbrotStep (zr zi cr ci : BigFloat) : BigFloat × BigFloat :=
  let tmp1 := bfSqr zr
  let tmp2 := bfSqr zi
  let prod := bfMul zr zi
  let prod2 : BigFloat := ⟨doubleLimbs prod.limbs 0, prod.sign⟩
  let zi1 := bfAdd prod2 ci
  let tmp1s := bfSub tmp1 tmp2
  let zr1 := bfAdd tmp1s cr
  (zr1, zi1)

/-- The fixed-point orbit of `z ← z² + c` started at `z = 0` with
precision `n`, the sequence the iteration loops of lines 485-493, 615-631
and 670-695 traverse. -/
def zSeq (cr ci : BigFloat) (n : ℕ) : ℕ → BigFloat × BigFloat
  | 0 => (bfZero n, bfZero n)
  | k + 1 =>
      let z := zSeq cr ci n k
      mandelbrotStep z.1 z.2 cr ci

/-- The loose escape condition of the reference-orbit loops (lines
626-627, 690-691): the down-converted magnitude squared of the `j`-th
orbit point exceeds `1e16`. -/
def looseEscape (cr ci : BigFloat) (n j : ℕ) : Prop :=
  bfToD (zSeq cr ci n j).1 * bfToD (zSeq cr ci n j).1 +
      bfToD (zSeq cr ci n j).2 * bfToD (zSeq cr ci n j).2 > 10 ^ 16

instance (cr ci : BigFloat) (n j : ℕ) : Decidable (looseEscape cr ci n j) :=
  inferInstanceAs (Decidable (_ > _))

/-- The escape loop of `mandelbrot_iterate` (lines 485-495): with `k`
iterations left, test `bf_escaped(zr, zi, 4.0)` and stop, else step;
returns the number of loop iterations executed before the escape test
fired (or `k` if it never fired). -/
def iterLoop (cr ci : BigFloat) : ℕ → BigFloat → BigFloat → ℕ
  | 0, _, _ => 0
  | k + 1, zr, zi =>
      if bfEscaped zr zi 4 then 0
      else
        let z := mandelbrotStep zr zi cr ci
        iterLoop cr ci k z.1 z.2 + 1

/-- `mandelbrot_iterate` (lines 470-496). -/
def mandelbrotIterate (crStr ciStr : List Char) (maxIter n : ℕ) : ℕ :=
  let cr := bfFromStr crStr n
  let ci := bfFromStr ciStr n
  iterLoop cr ci maxIter (bfZero n) (bfZero n)

/-- Output record of `compute_reference_orbit` (lines 588-634): the two
orbit arrays, the reported `escape_iter`, and the returned step count. -/
structure OrbitResult where
  re : List ℚ
  im : List ℚ
  escapeIter : ℤ
  steps : ℕ
deriving DecidableEq, Repr

/-- Intermediate state of the `compute_reference_orbit` loop: the orbit
entries written after the current point, and the relative 1-based index of
the escaping step if the loop stopped early. -/
structure OrbTail where
  re : List ℚ
  im : List ℚ
  esc : Option ℕ
deriving DecidableEq, Repr

/-- The loop of `compute_reference_orbit` (lines 615-631), with `k`
iterations remaining: step, record the down-converted pair, and stop early
when `zr_d² + zi_d² > 1e16`. -/
def refOrbitAux (cr ci : BigFloat) : ℕ → BigFloat → BigFloat → OrbTail
  | 0, _, _ => ⟨[], [], none⟩
  | k + 1, zr, zi =>
      let z := mandelbrotStep zr zi cr ci
      let zrd := bfToD z.1
      let zid := bfToD z.2
      if zrd * zrd + zid * zid > 10 ^ 16 then ⟨[zrd], [zid], some 1⟩
      else
        let t := refOrbitAux cr ci k z.1 z.2
        ⟨zrd :: t.re, zid :: t.im, t.esc.map (· + 1)⟩

/-- `refOrbitAux` started at the `i`-th orbit point, for the loop
characterization. -/
def orbAuxAt (cr ci : BigFloat) (n k i : ℕ) : OrbTail :=
  refOrbitAux cr ci k (zSeq cr ci n i).1 (zSeq cr ci n i).2

/-- `compute_reference_orbit` (lines 588-634): index 0 holds `(0,0)`,
`escape_iter` starts at `-1` and is overwritten with `i+1` on escape, and
the return value is `i+1` on escape, else `max_iter`. -/
def computeReferenceOrbit (crStr ciStr : List Char) (maxIter n : ℕ) : OrbitResult :=
  let cr := bfFromStr crStr n
  let ci := bfFromStr ciStr n
  let t := refOrbitAux cr ci maxIter (bfZero n) (bfZero n)
  { re := 0 :: t.re
    im := 0 :: t.im
    escapeIter := match t.esc with | none => -1 | some j => (j : ℤ)
    steps := match t.esc with | none => maxIter | some j => j }

/-- Output record of `compute_reference_orbit_extended` (lines 640-698). -/
structure OrbitExtResult where
  re : List ℚ
  im : List ℚ
  z2re : List ℚ
  z2im : List ℚ
  escapeIter : ℤ
  steps : ℕ
deriving DecidableEq, Repr

/-- Intermediate state of the `compute_reference_orbit_extended` loop. -/
structure OrbExtTail where
  re : List ℚ
  im : List ℚ
  z2re : List ℚ
  z2im : List ℚ
  esc : Option ℕ
deriving DecidableEq, Repr

/-- The loop of `compute_reference_orbit_extended` (lines 670-695):
`z2r = zr²`, `z2i = zi²` are squared before the step; the stored `Z²` real
part is `to_d(z2r) - to_d(z2i)`, while the stored `Z²` imaginary part is
`2 * orbit_re_out[i] * orbit_im_out[i]` — the array entries written in the
previous iteration, threaded here as `pRe`, `pIm`. -/
def refOrbitExtAux (cr ci : BigFloat) :
    ℕ → BigFloat → BigFloat → ℚ → ℚ → OrbExtTail
  | 0, _, _, _, _ => ⟨[], [], [], [], none⟩
  | k + 1, zr, zi, pRe, pIm =>
      let z2r := bfSqr zr
      let z2i := bfSqr zi
      let z := mandelbrotStep zr zi cr ci
      let zrd := bfToD z.1
      let zid := bfToD z.2
      let z2rd := bfToD z2r - bfToD z2i
      let z2id := 2 * pRe * pIm
      if zrd * zrd + zid * zid > 10 ^ 16 then ⟨[zrd], [zid], [z2rd], [z2id], some 1⟩
      else
        let t := refOrbitExtAux cr ci k z.1 z.2 zrd zid
        ⟨zrd :: t.re, zid :: t.im, z2rd :: t.z2re, z2id :: t.z2im, t.esc.map (· + 1)⟩

/-- `compute_reference_orbit_extended` (lines 640-698): all four arrays
hold 0 at index 0, and `orbit_re_out[0] = orbit_im_out[0] = 0` are the
values read for the first iteration's `Z²` imaginary part. -/
def computeReferenceOrbitExtended (crStr ciStr : List Char) (maxIter n : ℕ) : OrbitExtResult :=
  let cr := bfFromStr crStr n
  let ci := bfFromStr ciStr n
  let t := refOrbitExtAux cr ci maxIter (bfZero n) (bfZero n) 0 0
  { re := 0 :: t.re
    im := 0 :: t.im
    z2re := 0 :: t.z2re
    z2im := 0 :: t.z2im
    escapeIter := match t.esc with | none => -1 | some j => (j : ℤ)
    steps := match t.esc with | none => maxIter | some j => j }

/-- `refOrbitExtAux` started at the `i`-th orbit point, with the
down-converted pair of that same point as the previous-entry arguments
(the arrays hold exactly those values at index `i`). -/
def extAuxAt (cr ci : BigFloat) (n k i : ℕ) : OrbExtTail :=
  refOrbitExtAux cr ci k (zSeq cr ci n i).1 (zSeq cr ci n i).2
    (bfToD (zSeq cr ci n i).1) (bfToD (zSeq cr ci n i).2)


/-- A store of caller-owned `BigFloat` cells, addressed by naturals, for
the in-place frame properties: the C operations write only through their
output pointer `r`. -/
def BfStore := ℕ → BigFloat

/-- `bf_add(r, a, b)` as a store transformer: the only cell written is
`r` (every assignment in lines 180-216 targets `r->`). -/
def bfAddStore (σ : BfStore) (r a b : ℕ) : BfStore :=
  Function.update σ r (bfAdd (σ a) (σ b))

/-- `bf_sub(r, a, b)` as a store transformer: the negation happens on the
stack-local `neg_b` copy (lines 221-226), never on the cell of `b`. -/
def bfSubStore (σ : BfStore) (r a b : ℕ) : BfStore :=
  Function.update σ r (bfSub (σ a) (σ b))

/-- `bf_mul(r, a, b)` as a store transformer (lines 288-294 and the
schoolbook body, which writes `scratch` and `r->` only). -/
def bfMulStore (σ : BfStore) (r a b : ℕ) : BfStore :=
  Function.update σ r (bfMul (σ a) (σ b))

/-- `bf_sqr(r, a)` as a store transformer (lines 300-352). -/
def bfSqrStore (σ : BfStore) (r a : ℕ) : BfStore :=
  Function.update σ r (bfSqr (σ a))

/-! ### Spec-side definitions (from the specification's words, for the
refinement claims and invariants) -/

/-- The §3 invariant: `sign = zero` iff every active limb is 0. -/
def signZeroInv (x : BigFloat) : Prop := x.sign = 0 ↔ ∀ u ∈ x.limbs, u = 0

/-- Modelled from the spec (§4.3): the limbs of the fixed-point product
are "the upper `n` limbs of the product shifted right by 4 bits", i.e.
limb `i` is bits `32(n+i)-4 .. 32(n+i)+27` of the integer product of the
two magnitudes. -/
def mulSpecLimbs (P n : ℕ) : List ℕ :=
  (List.range n).map fun i => P / 2 ^ (32 * (n + i) - 4) % 2 ^ 32

/-- Modelled from the spec (§4.3): "Sign of the product is the XOR of
operand signs unless either operand is zero, in which case the result is
zero." -/
def mulSpecSign (a b : BigFloat) : ℤ :=
  if a.sign = 0 ∨ b.sign = 0 then 0 else if a.sign = b.sign then 1 else -1

/-- The claim-literal schoolbook fixed-point product: magnitude window
plus the XOR-unless-zero sign, with no all-zero renormalization. -/
def mulSpecXor (a b : BigFloat) : BigFloat :=
  ⟨mulSpecLimbs (limbsVal a.limbs * limbsVal b.limbs) a.limbs.length, mulSpecSign a b⟩

/-- The amended spec product: as `mulSpecXor`, but the sign is also
normalized to zero when the extracted magnitude window is all-zero (the
behaviour the code actually has). -/
def mulSpecNorm (a b : BigFloat) : BigFloat :=
  let limbs := mulSpecLimbs (limbsVal a.limbs * limbsVal b.limbs) a.limbs.length
  ⟨limbs, if limbs.all (· == 0) then 0 else mulSpecSign a b⟩

/-! ### Basic list and limb-arithmetic lemmas -/

theorem lget_nil (k : ℕ) : lget [] k = 0 := rfl

theorem lget_replicate (m k : ℕ) : lget (List.replicate m 0) k = 0 := by
  induction m generalizing k with
  | zero => rfl
  | succ m ih =>
      cases k with
      | zero => rfl
      | succ k => simpa [lget, List.replicate, List.getD] using ih k

theorem lget_set_self (s : List ℕ) (k v : ℕ) (h : k < s.length) :
    lget (s.set k v) k = v := by
  induction s generalizing k with
  | nil => simp at h
  | cons x xs ih =>
      cases k with
      | zero => rfl
      | succ k =>
          simp only [List.length_cons, Nat.succ_lt_succ_iff] at h
          simpa [lget, List.set, List.getD] using ih k h

theorem lget_set_ne (s : List ℕ) (k v j : ℕ) (h : k ≠ j) :
    lget (s.set k v) j = lget s j := by
  induction s generalizing k j with
  | nil => rfl
  | cons x xs ih =>
      cases k with
      | zero =>
          cases j with
          | zero => exact absurd rfl h
          | succ j => rfl
      | succ k =>
          cases j with
          | zero => rfl
          | succ j =>
              have : k ≠ j := fun hh => h (by simp [hh])
              simpa [lget, List.set, List.getD] using ih k j this

theorem limbsVal_replicate_zero (m : ℕ) : limbsVal (List.replicate m 0) = 0 := by
  induction m with
  | zero => rfl
  | succ m ih => simp [List.replicate, limbsVal, ih]

/-- Setting position `k` of a limb list changes its value by exchanging the
old digit for the new one (stated additively to stay in `ℕ`). -/
theorem limbsVal_set (s : List ℕ) (k v : ℕ) (h : k < s.length) :
    limbsVal (s.set k v) + lget s k * 2 ^ (32 * k) =
      limbsVal s + v * 2 ^ (32 * k) := by
  induction s generalizing k with
  | nil => simp at h
  | cons x xs ih =>
      cases k with
      | zero =>
          show v + 2 ^ 32 * limbsVal xs + x * 2 ^ (32 * 0) =
            x + 2 ^ 32 * limbsVal xs + v * 2 ^ (32 * 0)
          ring
      | succ k =>
          simp only [List.length_cons, Nat.succ_lt_succ_iff] at h
          have hh := ih k h
          show x + 2 ^ 32 * limbsVal (xs.set k v) + lget xs k * 2 ^ (32 * (k + 1)) =
            x + 2 ^ 32 * limbsVal xs + v * 2 ^ (32 * (k + 1))
          have e1 : 2 ^ (32 * (k + 1)) = 2 ^ (32 * k) * 2 ^ 32 := by
            rw [← pow_add]; ring_nf
          rw [e1]
          nlinarith [hh]

theorem allLt32_replicate (m : ℕ) : allLt32 (List.replicate m 0) := by
  intro x hx
  have := List.eq_of_mem_replicate hx
  simp [this]

theorem allLt32_set (s : List ℕ) (k v : ℕ) (hs : allLt32 s) (hv : v < 2 ^ 32) :
    allLt32 (s.set k v) := by
  intro x hx
  rcases List.mem_or_eq_of_mem_set hx with h | h
  · exact hs x h
  · simpa [h] using hv

theorem allLt32_lget (s : List ℕ) (hs : allLt32 s) (k : ℕ) : lget s k < 2 ^ 32 := by
  unfold lget
  rcases Nat.lt_or_ge k s.length with h | h
  · rw [List.getD_eq_getElem s 0 h]
    exact hs _ (List.getElem_mem h)
  · rw [List.getD_eq_default _ _ h]
    exact Nat.pos_pow_of_pos 32 (by norm_num)

/-- `(u + 2^32 * v) % (2^32 * M) = u + 2^32 * (v % M)` for `u < 2^32`:
the low limb is unaffected by truncating the high part. -/
theorem add_mul_mod_mul (u v M : ℕ) (hu : u < 2 ^ 32) :
    (u + 2 ^ 32 * v) % (2 ^ 32 * M) = u + 2 ^ 32 * (v % M) := by
  rcases Nat.eq_zero_or_pos M with hM | hM
  · simp [hM]
  · have h1 : u + 2 ^ 32 * v
        = u + 2 ^ 32 * (v % M) + 2 ^ 32 * M * (v / M) := by
      conv_lhs => rw [← Nat.div_add_mod v M]
      ring
    rw [h1, Nat.add_mul_mod_self_left]
    apply Nat.mod_eq_of_lt
    have h2 : v % M + 1 ≤ M := Nat.mod_lt v hM
    have h3 : 2 ^ 32 * (v % M + 1) ≤ 2 ^ 32 * M := Nat.mul_le_mul_left _ h2
    nlinarith

/-- Digits of a bounded limb list are the base-`2^32` digits of its value. -/
theorem lget_eq_digit (s : List ℕ) (hs : allLt32 s) (k : ℕ) :
    lget s k = limbsVal s / 2 ^ (32 * k) % 2 ^ 32 := by
  induction s generalizing k with
  | nil => simp [lget, limbsVal]
  | cons x xs ih =>
      have hx : x < 2 ^ 32 := hs x (by simp)
      have hxs : allLt32 xs := fun y hy => hs y (by simp [hy])
      cases k with
      | zero =>
          show x = limbsVal (x :: xs) / 2 ^ (32 * 0) % 2 ^ 32
          rw [show limbsVal (x :: xs) = x + 2 ^ 32 * limbsVal xs from rfl]
          rw [Nat.mul_zero, pow_zero, Nat.div_one, Nat.add_mul_mod_self_left,
            Nat.mod_eq_of_lt hx]
      | succ k =>
          have e1 : 32 * (k + 1) = 32 + 32 * k := by ring
          rw [e1, pow_add, ← Nat.div_div_eq_div_mul]
          have e2 : (x + 2 ^ 32 * limbsVal xs) / 2 ^ 32 = limbsVal xs := by
            rw [Nat.add_mul_div_left _ _ (by norm_num : 0 < 2 ^ 32),
              Nat.div_eq_of_lt hx, Nat.zero_add]
          show lget xs k = _
          rw [show limbsVal (x :: xs) = x + 2 ^ 32 * limbsVal xs from rfl, e2]
          exact ih hxs k

/-! ### C3: `bf_sqr` versus `bf_mul` -/

/-- C3: the claim that `square(r, a)` is bit-exactly `multiply(r, a, a)`
fails on the code: at `a` with active limbs `[0xFFFFFFFF, 0xFFFFFFFF]`
(n = 2, positive — a legal value, magnitude just below 16), `bf_sqr`
returns limbs `[0xFFFFFFE0, 0xFFFFFFEF]` while `bf_mul` (which dispatches
to the schoolbook product here) returns `[0xFFFFFFE0, 0xFFFFFFFF]`, the
correct upper window of `(2^64 - 1)^2`.  `bf_sqr` loses carries: the
doubled cross product's 65th bit (`prod_hi`) is accumulated one limb too
low, and the `uint32` additions `scratch[i+j] + (limb_t)prod` and
`scratch[2i] + (limb_t)diag` wrap with their carry-out discarded. -/
theorem c3_sqr_differs_from_mul_at_failing_input :
    bfSqr ⟨[0xFFFFFFFF, 0xFFFFFFFF], 1⟩ ≠
        bfMul ⟨[0xFFFFFFFF, 0xFFFFFFFF], 1⟩ ⟨[0xFFFFFFFF, 0xFFFFFFFF], 1⟩ ∧
      (bfSqr ⟨[0xFFFFFFFF, 0xFFFFFFFF], 1⟩).limbs = [0xFFFFFFE0, 0xFFFFFFEF] ∧
      (bfMul ⟨[0xFFFFFFFF, 0xFFFFFFFF], 1⟩ ⟨[0xFFFFFFFF, 0xFFFFFFFF], 1⟩).limbs =
        [0xFFFFFFE0, 0xFFFFFFFF] ∧
      limbsVal [0xFFFFFFE0, 0xFFFFFFFF] =
        limbsVal [0xFFFFFFFF, 0xFFFFFFFF] * limbsVal [0xFFFFFFFF, 0xFFFFFFFF] /
          2 ^ (32 * 2 - 4) % 2 ^ (32 * 2) := by
  refine ⟨?_, by decide, by decide, by decide⟩
  intro h
  have := congrArg BigFloat.limbs h
  revert this
  decide

/-! ### C10: operations leave their input operands unchanged -/

/-- C10: when the output cell `r` is distinct from both input cells,
`bf_add`, `bf_sub`, `bf_mul` and `bf_sqr` leave both inputs' limbs, active
counts and signs untouched, and `bf_sub` in particular reads `b` only to
copy it into the private local `neg_b` whose sign is flipped — the store
cell of `b` keeps its original sign. -/
theorem c10_ops_leave_inputs_unchanged (σ : BfStore) (r a b : ℕ)
    (hra : r ≠ a) (hrb : r ≠ b) :
    bfAddStore σ r a b a = σ a ∧ bfAddStore σ r a b b = σ b ∧
      bfSubStore σ r a b a = σ a ∧ bfSubStore σ r a b b = σ b ∧
      bfMulStore σ r a b a = σ a ∧ bfMulStore σ r a b b = σ b ∧
      bfSqrStore σ r a a = σ a ∧
      bfSubStore σ r a b b = σ b ∧
      bfSubStore σ r a b r = bfAdd (σ a) ⟨(σ b).limbs, -(σ b).sign⟩ := by
  unfold bfAddStore bfSubStore bfMulStore bfSqrStore
  refine ⟨?_, ?_, ?_, ?_, ?_, ?_, ?_, ?_, ?_⟩ <;>
    simp [Function.update_noteq (Ne.symm hra), Function.update_noteq (Ne.symm hrb),
      bfSub, bfCopy]

/-- Witness for `c10_ops_leave_inputs_unchanged` at a concrete store. -/
theorem c10_witness :
    (fun σ : BfStore => bfSubStore σ 0 1 2 2 = σ 2)
      (fun k => ⟨[k, 7], 1⟩) := by
  exact (c10_ops_leave_inputs_unchanged (fun k => ⟨[k, 7], 1⟩) 0 1 2
    (by decide) (by decide)).2.2.2.1

/-! ### Zero-operand propagation through the multiply/square scratch -/

theorem set_replicate_zero (m k : ℕ) :
    (List.replicate m 0).set k 0 = List.replicate m 0 := by
  induction m generalizing k with
  | zero => rfl
  | succ m ih =>
      cases k with
      | zero => simp [List.replicate, List.set]
      | succ k => simp [List.replicate, List.set, ih]

theorem mulInner_zero (ai : ℕ) (bs : List ℕ) (m pos : ℕ)
    (h : ∀ bj ∈ bs, ai * bj = 0) :
    mulInner ai bs (List.replicate m 0) pos 0 = (List.replicate m 0, 0) := by
  induction bs generalizing pos with
  | nil => rfl
  | cons bj rest ih =>
      have hb : ai * bj = 0 := h bj (by simp)
      have hrest : ∀ x ∈ rest, ai * x = 0 := fun x hx => h x (by simp [hx])
      show mulInner ai rest
          ((List.replicate m 0).set pos ((lget (List.replicate m 0) pos + ai * bj + 0) % 2 ^ 32))
          (pos + 1) ((lget (List.replicate m 0) pos + ai * bj + 0) / 2 ^ 32) = _
      rw [lget_replicate, hb]
      norm_num [set_replicate_zero]
      exact ih (pos + 1) hrest

theorem mulOuter_zero (as : List ℕ) (bs : List ℕ) (m : ℕ) :
    ∀ (i n : ℕ), (∀ ai ∈ as, ∀ bj ∈ bs, ai * bj = 0) →
    mulOuter as bs (List.replicate m 0) i n = List.replicate m 0 := by
  induction as with
  | nil => intro i n _; rfl
  | cons ai rest ih =>
      intro i n h
      have hai : ∀ bj ∈ bs, ai * bj = 0 := h ai (by simp)
      have hrest : ∀ x ∈ rest, ∀ bj ∈ bs, x * bj = 0 := fun x hx => h x (by simp [hx])
      show mulOuter rest bs
          ((mulInner ai bs (List.replicate m 0) i 0).1.set (i + n)
            ((lget (mulInner ai bs (List.replicate m 0) i 0).1 (i + n) +
              (mulInner ai bs (List.replicate m 0) i 0).2 % 2 ^ 32) % 2 ^ 32)) (i + 1) n = _
      rw [mulInner_zero ai bs m i hai]
      simp only [lget_replicate]
      norm_num [set_replicate_zero]
      exact ih (i + 1) n hrest

theorem extractLimbs_replicate_zero (m n : ℕ) :
    extractLimbs (List.replicate m 0) n = List.replicate n 0 := by
  refine List.eq_replicate.mpr ⟨by simp [extractLimbs], ?_⟩
  intro x hx
  simp only [extractLimbs, List.mem_map] at hx
  obtain ⟨i, _, hi⟩ := hx
  rw [lget_replicate, lget_replicate] at hi
  simp at hi
  omega

theorem sqrPropagate_zero_carry (fuel : ℕ) (s : List ℕ) (k : ℕ) :
    sqrPropagate fuel s k 0 = s := by
  cases fuel with
  | zero => rfl
  | succ fuel => simp [sqrPropagate]

theorem sqrInner_zero (ai : ℕ) (arest : List ℕ) (m : ℕ)
    (hai : ai = 0) : ∀ (i j n : ℕ),
    sqrInner ai arest (List.replicate m 0) i j n = List.replicate m 0 := by
  subst hai
  induction arest with
  | nil => intro i j n; rfl
  | cons aj rest ih =>
      intro i j n
      show sqrInner 0 rest
        (sqrPropagate (2 * n + 2 - (i + j + 1))
          ((List.replicate m 0).set (i + j)
            ((lget (List.replicate m 0) (i + j) + 0 * aj * 2 % 2 ^ 64 % 2 ^ 32) % 2 ^ 32))
          (i + j + 1)
          ((lget (List.replicate m 0) (i + j) + 0 * aj * 2 % 2 ^ 64 % 2 ^ 32) % 2 ^ 32 / 2 ^ 32 +
            0 * aj * 2 % 2 ^ 64 / 2 ^ 32 + 0 * aj / 2 ^ 63)) i (j + 1) n = _
      rw [lget_replicate]
      norm_num [set_replicate_zero, sqrPropagate_zero_carry]
      exact ih i (j + 1) n

theorem sqrOuter_zero (as : List ℕ) (m : ℕ) (h : ∀ x ∈ as, x = 0) :
    ∀ (i n : ℕ), sqrOuter as (List.replicate m 0) i n = List.replicate m 0 := by
  induction as with
  | nil => intro i n; rfl
  | cons ai rest ih =>
      intro i n
      have hai : ai = 0 := h ai (by simp)
      have hrest : ∀ x ∈ rest, x = 0 := fun x hx => h x (by simp [hx])
      rw [sqrOuter, hai]
      norm_num [lget_replicate, set_replicate_zero, sqrPropagate_zero_carry,
        sqrInner_zero 0 rest m rfl]
      exact ih hrest (i + 1) n

/-! ### C2: the sign/zero invariant -/

theorem bfIsZero_iff (x : BigFloat) : bfIsZero x = true ↔ ∀ u ∈ x.limbs, u = 0 := by
  simp [bfIsZero, List.all_eq_true]

/-- The final renormalization step of `bf_add`, `bf_mul_schoolbook` and
`bf_sqr` establishes the invariant whenever the incoming sign is
nonzero. -/
theorem signZeroInv_norm (r : BigFloat) (h : r.sign ≠ 0) :
    signZeroInv (if bfIsZero r then ⟨r.limbs, 0⟩ else r) := by
  by_cases hz : bfIsZero r
  · rw [if_pos hz]
    exact ⟨fun _ => (bfIsZero_iff r).mp hz, fun _ => rfl⟩
  · rw [if_neg hz]
    constructor
    · intro h0; exact absurd h0 h
    · intro hall; exact absurd ((bfIsZero_iff r).mpr hall) hz

theorem signZeroInv_zero (n : ℕ) : signZeroInv (bfZero n) := by
  constructor
  · intro _ u hu
    exact List.eq_of_mem_replicate hu
  · intro _; rfl

theorem signZeroInv_copy (a : BigFloat) (ha : signZeroInv a) : signZeroInv (bfCopy a) := ha

theorem signZeroInv_add (a b : BigFloat) (ha : signZeroInv a) (hb : signZeroInv b) :
    signZeroInv (bfAdd a b) := by
  unfold bfAdd
  by_cases ha0 : a.sign = 0
  · rw [if_pos ha0]; exact hb
  · rw [if_neg ha0]
    by_cases hb0 : b.sign = 0
    · rw [if_pos hb0]; exact ha
    · rw [if_neg hb0]
      by_cases hs : a.sign = b.sign
      · simp only [if_pos hs]
        exact signZeroInv_norm _ ha0
      · simp only [if_neg hs]
        by_cases hc : bfCmpMag a b = 0
        · simp only [if_pos hc]
          have hz : signZeroInv (bfZero a.limbs.length) := signZeroInv_zero _
          by_cases hzz : bfIsZero (bfZero a.limbs.length)
          · rw [if_pos hzz]
            exact ⟨fun _ => (bfIsZero_iff _).mp hzz, fun _ => rfl⟩
          · rw [if_neg hzz]; exact hz
        · simp only [if_neg hc]
          by_cases hgt : 0 < bfCmpMag a b
          · simp only [if_pos hgt]
            exact signZeroInv_norm _ ha0
          · simp only [if_neg hgt]
            exact signZeroInv_norm _ hb0

theorem signZeroInv_sub (a b : BigFloat) (ha : signZeroInv a) (hb : signZeroInv b) :
    signZeroInv (bfSub a b) := by
  unfold bfSub
  apply signZeroInv_add a _ ha
  unfold signZeroInv bfCopy at *
  simpa using hb

/-- The limbs of a well-formed zero operand are literally a zero list. -/
theorem limbs_eq_replicate_of_allzero (l : List ℕ) (h : ∀ u ∈ l, u = 0) :
    l = List.replicate l.length 0 :=
  List.eq_replicate_iff.mpr ⟨rfl, h⟩

theorem signZeroInv_mulSchoolbook (a b : BigFloat)
    (ha : signZeroInv a) (hb : signZeroInv b) :
    signZeroInv (bfMulSchoolbook a b) := by
  unfold bfMulSchoolbook
  set n := a.limbs.length with hn
  set lims := extractLimbs (mulOuter a.limbs b.limbs (List.replicate (2 * n + 2) 0) 0 n) n
    with hlims
  by_cases hz : lims.all (· == 0)
  · constructor
    · intro _ u hu
      have := List.all_eq_true.mp hz u hu
      simpa using this
    · intro _
      simp only [if_pos hz]
  · have hne : ¬ (∀ u ∈ lims, u = 0) := by
      intro hall
      exact hz (List.all_eq_true.mpr fun u hu => by simpa using hall u hu)
    constructor
    · intro hsig
      simp only [if_neg hz] at hsig
      exfalso
      by_cases ha0 : a.sign = 0
      · have hao : a.limbs = List.replicate n 0 :=
          limbs_eq_replicate_of_allzero _ (ha.mp ha0)
        apply hne
        rw [hlims, hao, mulOuter_zero _ _ _ _ _ (by
          intro ai hai bj _
          rw [List.eq_of_mem_replicate hai, Nat.zero_mul]),
          extractLimbs_replicate_zero]
        intro u hu
        exact List.eq_of_mem_replicate hu
      · by_cases hb0 : b.sign = 0
        · have hbo : b.limbs = List.replicate b.limbs.length 0 :=
            limbs_eq_replicate_of_allzero _ (hb.mp hb0)
          apply hne
          rw [hlims, hbo, mulOuter_zero _ _ _ _ _ (by
            intro ai _ bj hbj
            rw [List.eq_of_mem_replicate hbj, Nat.mul_zero]),
            extractLimbs_replicate_zero]
          intro u hu
          exact List.eq_of_mem_replicate hu
        · rw [if_neg (show ¬(a.sign = 0 ∨ b.sign = 0) by tauto)] at hsig
          split at hsig <;> omega
    · intro hall
      exact absurd hall hne

theorem signZeroInv_sqr (a : BigFloat) (ha : signZeroInv a) :
    signZeroInv (bfSqr a) := by
  unfold bfSqr
  set n := a.limbs.length with hn
  set lims := extractLimbs (sqrOuter a.limbs (List.replicate (2 * n + 2) 0) 0 n) n with hlims
  by_cases hz : lims.all (· == 0)
  · constructor
    · intro _ u hu
      have := List.all_eq_true.mp hz u hu
      simpa using this
    · intro _
      simp only [if_pos hz]
  · have hne : ¬ (∀ u ∈ lims, u = 0) := by
      intro hall
      exact hz (List.all_eq_true.mpr fun u hu => by simpa using hall u hu)
    constructor
    · intro hsig
      simp only [if_neg hz] at hsig
      exfalso
      by_cases ha0 : a.sign = 0
      · have hao : a.limbs = List.replicate n 0 :=
          limbs_eq_replicate_of_allzero _ (ha.mp ha0)
        apply hne
        rw [hlims, hao, sqrOuter_zero _ _ (fun x hx => List.eq_of_mem_replicate hx),
          extractLimbs_replicate_zero]
        intro u hu
        exact List.eq_of_mem_replicate hu
      · rw [if_pos ha0] at hsig
        exact one_ne_zero hsig
    · intro hall
      exact absurd hall hne

theorem signZeroInv_mul (a b : BigFloat) (ha : signZeroInv a) (hb : signZeroInv b) :
    signZeroInv (bfMul a b) := by
  unfold bfMul bfMulKaratsuba
  split
  · exact signZeroInv_mulSchoolbook a b ha hb
  · exact signZeroInv_mulSchoolbook a b ha hb

/-- C2 (amended): `zero` establishes the invariant, `copy` preserves it,
and `add`, `subtract`, `multiply`, `square` (re)establish it on
well-formed inputs — but `from_double` is excluded: it never renormalizes
the sign it sets from `d` (see the counterexample). -/
theorem c2_sign_zero_invariant_amended :
    (∀ n, signZeroInv (bfZero n)) ∧
      (∀ a, signZeroInv a → signZeroInv (bfCopy a)) ∧
      (∀ a b, signZeroInv a → signZeroInv b → signZeroInv (bfAdd a b)) ∧
      (∀ a b, signZeroInv a → signZeroInv b → signZeroInv (bfSub a b)) ∧
      (∀ a b, signZeroInv a → signZeroInv b → signZeroInv (bfMul a b)) ∧
      (∀ a, signZeroInv a → signZeroInv (bfSqr a)) :=
  ⟨signZeroInv_zero, signZeroInv_copy, signZeroInv_add, signZeroInv_sub,
    signZeroInv_mul, signZeroInv_sqr⟩

/-- Witness for `c2_sign_zero_invariant_amended` on concrete inputs. -/
theorem c2_witness :
    signZeroInv (bfAdd ⟨[1, 0], 1⟩ ⟨[2, 0], 1⟩) ∧ signZeroInv (bfSqr ⟨[3, 0], -1⟩) :=
  ⟨c2_sign_zero_invariant_amended.2.2.1 _ _
      (by constructor <;> intro h <;> simp_all)
      (by constructor <;> intro h <;> simp_all),
    c2_sign_zero_invariant_amended.2.2.2.2.2 _
      (by constructor <;> intro h <;> simp_all)⟩

set_option maxRecDepth 2000 in
/-- C2 fails as stated for `from_double`: `bf_set_d(2^-32, 2)` sets the
sign to `+1` from `d` but every fractional bit is dropped (`limb >> 4` at
the top limb discards bits 29..32 of the fraction), leaving all-zero
limbs with a nonzero sign — `bf_set_d` has no renormalization step.  All
double operations involved are exact on this input, so the rational model
agrees with the C computation. -/
theorem c2_counterexample_setD :
    (bfSetD ((1 : ℚ) / 2 ^ 32) 2).sign = 1 ∧
      (∀ u ∈ (bfSetD ((1 : ℚ) / 2 ^ 32) 2).limbs, u = 0) ∧
      (bfSetD ((1 : ℚ) / 2 ^ 32) 2).limbs.length = 2 ∧
      (1 : ℚ) / 2 ^ 32 ≠ 0 := by
  with_unfolding_all decide

/-! ### C8: same-sign addition adds magnitudes mod `2^(32n)` -/

theorem addMagLimbs_length : ∀ (xs ys : List ℕ) (c : ℕ),
    (addMagLimbs xs ys c).length = min xs.length ys.length
  | [], [], _ => rfl
  | [], _ :: _, _ => rfl
  | _ :: _, [], _ => rfl
  | x :: xs, y :: ys, c => by
      show (addMagLimbs xs ys _).length + 1 = _
      rw [addMagLimbs_length xs ys]
      simp [Nat.succ_min_succ]

theorem addMagLimbs_val : ∀ (xs ys : List ℕ) (c : ℕ), xs.length = ys.length →
    limbsVal (addMagLimbs xs ys c) =
      (limbsVal xs + limbsVal ys + c) % 2 ^ (32 * xs.length)
  | [], [], c, _ => by simp [addMagLimbs, limbsVal, Nat.mod_one]
  | [], y :: ys, c, h => by simp at h
  | x :: xs, [], c, h => by simp at h
  | x :: xs, y :: ys, c, h => by
      have hlen : xs.length = ys.length := by simpa using h
      have ih := addMagLimbs_val xs ys ((x + y + c) / 2 ^ 32) hlen
      show (x + y + c) % 2 ^ 32 + 2 ^ 32 * limbsVal (addMagLimbs xs ys ((x + y + c) / 2 ^ 32)) = _
      rw [ih, ← add_mul_mod_mul ((x + y + c) % 2 ^ 32) _ _ (Nat.mod_lt _ (by norm_num))]
      have e1 : 2 ^ 32 * 2 ^ (32 * xs.length) = 2 ^ (32 * (x :: xs).length) := by
        rw [← pow_add]
        congr 1
        simp only [List.length_cons]
        omega
      rw [e1]
      congr 1
      show _ = x + 2 ^ 32 * limbsVal xs + (y + 2 ^ 32 * limbsVal ys) + c
      omega

/-- C8: for nonzero same-sign same-`n` operands, `bf_add` stores
`(|a| + |b|) mod 2^(32n)` as the result's magnitude — the ripple-carry
keeps the low `32n` bits, the final carry is dropped, and the result still
has exactly `n` limbs (no widening, no error signal). -/
theorem c8_add_magnitude_mod (a b : BigFloat) (n : ℕ)
    (ha0 : a.sign ≠ 0) (hb0 : b.sign ≠ 0) (hs : a.sign = b.sign)
    (hla : a.limbs.length = n) (hlb : b.limbs.length = n)
    (hba : allLt32 a.limbs) (hbb : allLt32 b.limbs) :
    limbsVal (bfAdd a b).limbs =
        (limbsVal a.limbs + limbsVal b.limbs) % 2 ^ (32 * n) ∧
      (bfAdd a b).limbs.length = n := by
  have hv := addMagLimbs_val a.limbs b.limbs 0 (by rw [hla, hlb])
  rw [hla] at hv
  have hl : (addMagLimbs a.limbs b.limbs 0).length = n := by
    rw [addMagLimbs_length, hla, hlb, Nat.min_self]
  simp only [bfAdd, if_neg ha0, if_neg hb0, if_pos hs]
  constructor
  · split <;> simpa using hv
  · split <;> simpa using hl

/-- Witness for `c8_add_magnitude_mod`: adding `2^63 + 2^63` at `n = 2`
wraps to all-zero limbs. -/
theorem c8_witness :
    limbsVal (bfAdd ⟨[0, 0x80000000], 1⟩ ⟨[0, 0x80000000], 1⟩).limbs =
        (limbsVal [0, 0x80000000] + limbsVal [0, 0x80000000]) % 2 ^ (32 * 2) ∧
      (bfAdd ⟨[0, 0x80000000], 1⟩ ⟨[0, 0x80000000], 1⟩).limbs.length = 2 :=
  c8_add_magnitude_mod ⟨[0, 0x80000000], 1⟩ ⟨[0, 0x80000000], 1⟩ 2
    (by decide) (by decide) rfl rfl rfl
    (by unfold allLt32; decide) (by unfold allLt32; decide)

/-! ### C1: the `from_double` / `to_double` round trip -/

set_option maxRecDepth 2000 in
/-- C1 fails as stated: `d = 2^-29` is exactly representable in one
significant bit with `|d| < 16`, yet `bf_set_d(d, 2)` drops it entirely
(the first 32-bit fraction chunk is `8`, and `limb >> 4 = 0` is OR-ed into
the top limb while the residual is exactly 0), so the round trip returns
`0 ≠ d`.  Every double operation is exact here, so the rational model
agrees with the C computation. -/
theorem c1_counterexample_roundtrip :
    bfToD (bfSetD ((1 : ℚ) / 2 ^ 29) 2) = 0 ∧
      (1 : ℚ) / 2 ^ 29 ≠ 0 ∧ |(1 : ℚ) / 2 ^ 29| < 16 := by
  with_unfolding_all decide

theorem toDRest_zero (l : List ℕ) (h : ∀ x ∈ l, x = 0) :
    ∀ scale : ℚ, toDRest scale l = 0 := by
  induction l with
  | nil => intro scale; rfl
  | cons x xs ih =>
      intro scale
      have hx : x = 0 := h x (by simp)
      have hxs := ih fun y hy => h y (by simp [hy])
      simp [toDRest, hx, hxs]

theorem set_top_reverse (k : ℕ) (v : ℕ) :
    ((List.replicate (k + 1) 0).set k v).reverse = v :: List.replicate k 0 := by
  rw [List.replicate_succ' k 0,
    List.set_append_right _ _ (by simp : (List.replicate k 0).length ≤ k)]
  simp

/-- `bf_to_d` on a value whose only nonzero limb is the top one. -/
theorem bfToD_top (n v : ℕ) (hn : 1 ≤ n) (s : ℤ) (hs : s ≠ 0) :
    bfToD ⟨(List.replicate n 0).set (n - 1) v, s⟩ =
      (if s < 0 then -1 else 1) *
        (((v / 2 ^ 28 : ℕ) : ℚ) + ((v % 2 ^ 28 : ℕ) : ℚ) / 2 ^ 28) := by
  obtain ⟨k, rfl⟩ : ∃ k, n = k + 1 := ⟨n - 1, (Nat.succ_pred_eq_of_pos hn).symm⟩
  unfold bfToD
  rw [if_neg hs]
  simp only [Nat.add_sub_cancel, set_top_reverse]
  rw [toDRest_zero _ (fun x hx => List.eq_of_mem_replicate hx)]
  split <;> ring

/-- The fraction loop of `bf_set_d` on the residual `(M % 2^20) / 2^20`
with at least two limbs: the first chunk is `(M % 2^20) * 2^12`, its top
28 bits are OR-ed below the integer nibble, the residual becomes exactly
0, and the loop stops. -/
theorem setDLoop_frac (M n : ℕ) (hn : 2 ≤ n) (hM : 0 < M % 2 ^ 20) (limbs : List ℕ) :
    setDLoop n (((M % 2 ^ 20 : ℕ) : ℚ) / 2 ^ 20) limbs (n - 1) =
      limbs.set (n - 1) (Nat.lor (lget limbs (n - 1)) (M % 2 ^ 20 * 2 ^ 8)) := by
  obtain ⟨i', hi'⟩ : ∃ i', n - 1 = i' + 1 := ⟨n - 2, by omega⟩
  have hpos : ¬ (((M % 2 ^ 20 : ℕ) : ℚ) / 2 ^ 20 ≤ 0) := by
    push_neg
    have h0 : (0 : ℚ) < ((M % 2 ^ 20 : ℕ) : ℚ) := by exact_mod_cast hM
    positivity
  have hd1 : ((M % 2 ^ 20 : ℕ) : ℚ) / 2 ^ 20 * 2 ^ 32 = ((M % 2 ^ 20 * 2 ^ 12 : ℕ) : ℚ) := by
    push_cast
    field_simp
    ring
  have hfl : (⌊((M % 2 ^ 20 : ℕ) : ℚ) / 2 ^ 20 * 2 ^ 32⌋).toNat = M % 2 ^ 20 * 2 ^ 12 := by
    rw [hd1, Int.floor_natCast, Int.toNat_natCast]
  have hd2 : ((M % 2 ^ 20 : ℕ) : ℚ) / 2 ^ 20 * 2 ^ 32 - ((M % 2 ^ 20 * 2 ^ 12 : ℕ) : ℚ) = 0 := by
    rw [hd1]
    ring
  have hdiv : M % 2 ^ 20 * 2 ^ 12 / 2 ^ 4 = M % 2 ^ 20 * 2 ^ 8 := by
    rw [Nat.mul_div_assoc _ (by norm_num : (2 : ℕ) ^ 4 ∣ 2 ^ 12)]
    norm_num
  rw [setDLoop.eq_def, if_neg hpos]
  simp only [hfl, hdiv, hd2, eq_self_iff_true, if_true, hi']
  rw [setDLoop.eq_def, if_pos le_rfl]

/-- One-step unfolding of `bf_set_d` for nonzero `d` (lines 58-88). -/
theorem bfSetD_unfold (d : ℚ) (n : ℕ) (hd : d ≠ 0) :
    bfSetD d n =
      ⟨setDLoop n (|d| - (((⌊|d|⌋).toNat : ℕ) : ℚ))
          ((List.replicate n 0).set (n - 1) ((⌊|d|⌋).toNat % 2 ^ 32 * 2 ^ 28 % 2 ^ 32))
          (n - 1),
        if d < 0 then -1 else 1⟩ := by
  simp [bfSetD, hd]

/-- The floor of `M / 2^20` over ℚ is the natural division. -/
theorem floor_nat_div_pow (M : ℕ) : (⌊(M : ℚ) / 2 ^ 20⌋).toNat = M / 2 ^ 20 := by
  have h1 : (0 : ℚ) < 2 ^ 20 := by norm_num
  have hqr : 2 ^ 20 * (M / 2 ^ 20) + M % 2 ^ 20 = M := Nat.div_add_mod M (2 ^ 20)
  have hfl : ⌊(M : ℚ) / 2 ^ 20⌋ = ((M / 2 ^ 20 : ℕ) : ℤ) := by
    rw [Int.floor_eq_iff]
    constructor
    · rw [Int.cast_natCast, le_div_iff₀ h1]
      exact_mod_cast (by omega : M / 2 ^ 20 * 2 ^ 20 ≤ M)
    · rw [Int.cast_natCast, div_lt_iff₀ h1]
      exact_mod_cast (by omega : M < (M / 2 ^ 20 + 1) * 2 ^ 20)
  rw [hfl, Int.toNat_natCast]

/-- The limbs `bf_set_d` builds for `|d| = M / 2^20`, `M < 2^24`,
`n ≥ 2`: integer part in the top nibble, the 20 fractional bits shifted
into the next 28 bits, everything else zero. -/
theorem setD_core (M n : ℕ) (hn : 2 ≤ n) (hM : M < 2 ^ 24) :
    setDLoop n ((M : ℚ) / 2 ^ 20 - (((⌊(M : ℚ) / 2 ^ 20⌋).toNat : ℕ) : ℚ))
        ((List.replicate n 0).set (n - 1) ((⌊(M : ℚ) / 2 ^ 20⌋).toNat % 2 ^ 32 * 2 ^ 28 % 2 ^ 32))
        (n - 1) =
      (List.replicate n 0).set (n - 1) (M / 2 ^ 20 * 2 ^ 28 + M % 2 ^ 20 * 2 ^ 8) := by
  have hfl : (⌊(M : ℚ) / 2 ^ 20⌋).toNat = M / 2 ^ 20 := floor_nat_div_pow M
  have hip : M / 2 ^ 20 < 2 ^ 4 := by
    rw [Nat.div_lt_iff_lt_mul (by norm_num)]
    calc M < 2 ^ 24 := hM
    _ ≤ 2 ^ 4 * 2 ^ 20 := by norm_num
  have htop : (⌊(M : ℚ) / 2 ^ 20⌋).toNat % 2 ^ 32 * 2 ^ 28 % 2 ^ 32 = M / 2 ^ 20 * 2 ^ 28 := by
    rw [hfl, Nat.mod_eq_of_lt (by omega), Nat.mod_eq_of_lt (by nlinarith)]
  have hfrac : (M : ℚ) / 2 ^ 20 - (((⌊(M : ℚ) / 2 ^ 20⌋).toNat : ℕ) : ℚ) =
      ((M % 2 ^ 20 : ℕ) : ℚ) / 2 ^ 20 := by
    rw [hfl]
    have hmod : (2 ^ 20 : ℚ) * ((M / 2 ^ 20 : ℕ) : ℚ) + ((M % 2 ^ 20 : ℕ) : ℚ) = (M : ℚ) := by
      exact_mod_cast Nat.div_add_mod M (2 ^ 20)
    field_simp
    linarith [hmod]
  rw [htop, hfrac]
  by_cases hz : M % 2 ^ 20 = 0
  · rw [hz]
    rw [setDLoop.eq_def, if_pos (by norm_num)]
    norm_num
  · rw [setDLoop_frac M n hn (Nat.pos_of_ne_zero hz)]
    rw [lget_set_self _ _ _ (by simp; omega), List.set_set]
    congr 1
    have hlt : M % 2 ^ 20 * 2 ^ 8 < 2 ^ 28 := by
      have := Nat.mod_lt M (show 0 < 2 ^ 20 by norm_num)
      nlinarith
    have hor := Nat.mul_add_lt_is_or hlt (M / 2 ^ 20)
    rw [Nat.mul_comm (2 ^ 28) (M / 2 ^ 20)] at hor
    exact hor.symm

/-- C1 (amended): the round trip is exact for every double that is an
integer multiple of `2^-20` with `|d| < 16` (hence at most 24 significant
bits, all of them within the top limb's window), for every `n ≥ 2`.  The
original claim's full domain also contains doubles with set bits below
`2^-28`, which `bf_set_d` drops (see the counterexample). -/
theorem c1_roundtrip_amended (m : ℤ) (n : ℕ) (hn : 2 ≤ n) (hm : m.natAbs < 2 ^ 24) :
    bfToD (bfSetD ((m : ℚ) / 2 ^ 20) n) = (m : ℚ) / 2 ^ 20 := by
  by_cases hm0 : m = 0
  · subst hm0
    norm_num [bfSetD, bfZero, bfToD]
  · have hd0 : ((m : ℚ) / 2 ^ 20) ≠ 0 := by
      simp only [ne_eq, div_eq_zero_iff]
      push_neg
      exact ⟨by exact_mod_cast hm0, by norm_num⟩
    have habs : |(m : ℚ) / 2 ^ 20| = ((m.natAbs : ℕ) : ℚ) / 2 ^ 20 := by
      rw [abs_div, Int.cast_natAbs]
      norm_num
    rw [bfSetD_unfold _ _ hd0, habs, setD_core _ _ hn hm,
      bfToD_top _ _ (by omega) _ (by split <;> norm_num)]
    set M := m.natAbs with hMdef
    have hlt : M % 2 ^ 20 * 2 ^ 8 < 2 ^ 28 := by
      have := Nat.mod_lt M (show 0 < 2 ^ 20 by norm_num)
      nlinarith
    have hv1 : M / 2 ^ 20 * 2 ^ 28 + M % 2 ^ 20 * 2 ^ 8
        = M % 2 ^ 20 * 2 ^ 8 + 2 ^ 28 * (M / 2 ^ 20) := by ring
    have hdv : (M / 2 ^ 20 * 2 ^ 28 + M % 2 ^ 20 * 2 ^ 8) / 2 ^ 28 = M / 2 ^ 20 := by
      rw [hv1, Nat.add_mul_div_left _ _ (by norm_num : 0 < 2 ^ 28),
        Nat.div_eq_of_lt hlt, Nat.zero_add]
    have hmd : (M / 2 ^ 20 * 2 ^ 28 + M % 2 ^ 20 * 2 ^ 8) % 2 ^ 28 = M % 2 ^ 20 * 2 ^ 8 := by
      rw [hv1, Nat.add_mul_mod_self_left, Nat.mod_eq_of_lt hlt]
    rw [hdv, hmd]
    have hsum : ((M / 2 ^ 20 : ℕ) : ℚ) + ((M % 2 ^ 20 * 2 ^ 8 : ℕ) : ℚ) / 2 ^ 28
        = ((M : ℕ) : ℚ) / 2 ^ 20 := by
      have hmod : 2 ^ 20 * (M / 2 ^ 20) + M % 2 ^ 20 = M := Nat.div_add_mod M (2 ^ 20)
      have hmq : (2 ^ 20 : ℚ) * ((M / 2 ^ 20 : ℕ) : ℚ) + ((M % 2 ^ 20 : ℕ) : ℚ) = (M : ℚ) := by
        exact_mod_cast hmod
      have hb8 : ((M % 2 ^ 20 * 2 ^ 8 : ℕ) : ℚ) = ((M % 2 ^ 20 : ℕ) : ℚ) * 2 ^ 8 := by
        push_cast
        ring
      rw [hb8]
      field_simp
      linear_combination (2 ^ 28 : ℚ) * hmq
    rw [hsum]
    have hcast : ((M : ℕ) : ℚ) = |(m : ℚ)| := by
      rw [hMdef, Int.cast_natAbs, Int.cast_abs]
    rcases lt_trichotomy m 0 with hneg | hz | hpos
    · have hmq : (m : ℚ) < 0 := by exact_mod_cast hneg
      have hdneg : (m : ℚ) / 2 ^ 20 < 0 :=
        div_neg_of_neg_of_pos hmq (by norm_num)
      rw [if_pos hdneg, if_pos (show (-1 : ℤ) < 0 by norm_num), hcast, abs_of_neg hmq]
      ring
    · exact absurd hz hm0
    · have hmq : (0 : ℚ) < (m : ℚ) := by exact_mod_cast hpos
      have hdpos : ¬ ((m : ℚ) / 2 ^ 20 < 0) := by
        push_neg
        exact div_nonneg hmq.le (by norm_num)
      rw [if_neg hdpos, if_neg (show ¬ ((1 : ℤ) < 0) by norm_num), hcast, abs_of_pos hmq]
      ring

/-- Witness for `c1_roundtrip_amended` at `d = -21/2^20`, `n = 2`. -/
theorem c1_witness :
    bfToD (bfSetD (((-21 : ℤ) : ℚ) / 2 ^ 20) 2) = ((-21 : ℤ) : ℚ) / 2 ^ 20 :=
  c1_roundtrip_amended (-21) 2 (by norm_num) (by decide)

/-! ### C4: schoolbook multiplication computes the base-2^32 digits of the product -/

theorem mulInner_length (ai : ℕ) : ∀ (bs s : List ℕ) (pos c : ℕ),
    (mulInner ai bs s pos c).1.length = s.length
  | [], s, pos, c => rfl
  | bj :: rest, s, pos, c => by
      show (mulInner ai rest (s.set pos _) (pos + 1) _).1.length = _
      rw [mulInner_length ai rest]
      simp

theorem mulInner_frame (ai : ℕ) : ∀ (bs s : List ℕ) (pos c : ℕ) (k : ℕ),
    pos + bs.length ≤ k → lget (mulInner ai bs s pos c).1 k = lget s k
  | [], s, pos, c, k, hk => rfl
  | bj :: rest, s, pos, c, k, hk => by
      show lget (mulInner ai rest (s.set pos _) (pos + 1) _).1 k = _
      rw [mulInner_frame ai rest _ _ _ k (by simp at hk; omega)]
      exact lget_set_ne s pos _ k (by simp at hk; omega)

theorem mulInner_val (ai : ℕ) : ∀ (bs s : List ℕ) (pos c : ℕ),
    pos + bs.length ≤ s.length →
    limbsVal (mulInner ai bs s pos c).1 +
        (mulInner ai bs s pos c).2 * 2 ^ (32 * (pos + bs.length)) =
      limbsVal s + (ai * limbsVal bs + c) * 2 ^ (32 * pos)
  | [], s, pos, c, h => by
      show limbsVal s + c * 2 ^ (32 * (pos + 0)) = limbsVal s + (ai * 0 + c) * 2 ^ (32 * pos)
      ring_nf
  | bj :: rest, s, pos, c, h => by
      have hpos : pos < s.length := by simp at h; omega
      have hlen2 : pos + 1 + rest.length ≤
          (s.set pos ((lget s pos + ai * bj + c) % 2 ^ 32)).length := by
        simp only [List.length_set]
        simp at h
        omega
      have ih := mulInner_val ai rest (s.set pos ((lget s pos + ai * bj + c) % 2 ^ 32))
        (pos + 1) ((lget s pos + ai * bj + c) / 2 ^ 32) hlen2
      have hset := limbsVal_set s pos ((lget s pos + ai * bj + c) % 2 ^ 32) hpos
      have hdm : 2 ^ 32 * ((lget s pos + ai * bj + c) / 2 ^ 32) +
          (lget s pos + ai * bj + c) % 2 ^ 32 = lget s pos + ai * bj + c :=
        Nat.div_add_mod _ _
      show limbsVal (mulInner ai rest (s.set pos ((lget s pos + ai * bj + c) % 2 ^ 32))
            (pos + 1) ((lget s pos + ai * bj + c) / 2 ^ 32)).1 +
          (mulInner ai rest (s.set pos ((lget s pos + ai * bj + c) % 2 ^ 32))
            (pos + 1) ((lget s pos + ai * bj + c) / 2 ^ 32)).2 *
            2 ^ (32 * (pos + (bj :: rest).length)) =
        limbsVal s + (ai * limbsVal (bj :: rest) + c) * 2 ^ (32 * pos)
      have hexp : 32 * (pos + (bj :: rest).length) = 32 * (pos + 1 + rest.length) := by
        simp
        ring
      rw [hexp]
      have hlv : limbsVal (bj :: rest) = bj + 2 ^ 32 * limbsVal rest := rfl
      rw [hlv]
      zify at ih hset hdm ⊢
      linear_combination ih + hset + (2 : ℤ) ^ (32 * pos) * hdm

theorem mulInner_bound (ai : ℕ) : ∀ (bs s : List ℕ) (pos c : ℕ),
    allLt32 s → ai < 2 ^ 32 → allLt32 bs → c < 2 ^ 32 →
    allLt32 (mulInner ai bs s pos c).1 ∧ (mulInner ai bs s pos c).2 < 2 ^ 32
  | [], s, pos, c, hs, hai, hbs, hc => ⟨hs, hc⟩
  | bj :: rest, s, pos, c, hs, hai, hbs, hc => by
      have hbj : bj < 2 ^ 32 := hbs bj (by simp)
      have hg : lget s pos < 2 ^ 32 := by
        unfold lget
        rcases Nat.lt_or_ge pos s.length with h | h
        · rw [List.getD_eq_getElem s 0 h]
          exact hs _ (List.getElem_mem h)
        · rw [List.getD_eq_default _ _ h]
          positivity
      have hsum : lget s pos + ai * bj + c < 2 ^ 64 := by nlinarith
      have hdiv : (lget s pos + ai * bj + c) / 2 ^ 32 < 2 ^ 32 := by
        rw [Nat.div_lt_iff_lt_mul (by norm_num)]
        calc lget s pos + ai * bj + c < 2 ^ 64 := hsum
        _ = 2 ^ 32 * 2 ^ 32 := by norm_num
      have hset : allLt32 (s.set pos ((lget s pos + ai * bj + c) % 2 ^ 32)) := by
        intro x hx
        rcases List.mem_or_eq_of_mem_set hx with h | h
        · exact hs x h
        · rw [h]; exact Nat.mod_lt _ (by norm_num)
      exact mulInner_bound ai rest _ (pos + 1) _ hset hai
        (fun x hx => hbs x (by simp [hx])) hdiv

theorem mulOuter_spec : ∀ (as bs s : List ℕ) (i n : ℕ),
    bs.length = n → s.length = 2 * n + 2 → i + as.length ≤ n →
    allLt32 as → allLt32 bs → allLt32 s →
    (∀ k, i + n ≤ k → lget s k = 0) →
    limbsVal (mulOuter as bs s i n) =
        limbsVal s + limbsVal as * limbsVal bs * 2 ^ (32 * i) ∧
      allLt32 (mulOuter as bs s i n) ∧ (mulOuter as bs s i n).length = 2 * n + 2
  | [], bs, s, i, n, hbn, hsl, hin, has, hbs, hs, hz => by
      refine ⟨?_, hs, hsl⟩
      show limbsVal s = limbsVal s + 0 * limbsVal bs * 2 ^ (32 * i)
      ring
  | ai :: arest, bs, s, i, n, hbn, hsl, hin, has, hbs, hs, hz => by
      have hai : ai < 2 ^ 32 := has ai (by simp)
      have harest : allLt32 arest := fun x hx => has x (by simp [hx])
      have hin' : i + 1 + arest.length ≤ n := by simp at hin; omega
      have hlen : i + bs.length ≤ s.length := by rw [hbn, hsl]; omega
      have hval := mulInner_val ai bs s i 0 hlen
      rw [hbn] at hval
      have hbound := mulInner_bound ai bs s i 0 hs hai hbs (by norm_num)
      have hframe := mulInner_frame ai bs s i 0 (i + n) (by rw [hbn])
      have hflen := mulInner_length ai bs s i 0
      set p := mulInner ai bs s i 0 with hp
      have hg0 : lget p.1 (i + n) = 0 := by rw [hframe, hz (i + n) le_rfl]
      have hv2 : (lget p.1 (i + n) + p.2 % 2 ^ 32) % 2 ^ 32 = p.2 := by
        rw [hg0, Nat.mod_eq_of_lt hbound.2, Nat.zero_add, Nat.mod_eq_of_lt hbound.2]
      have hinlt : i + n < p.1.length := by rw [hflen, hsl]; omega
      set s2 := p.1.set (i + n) ((lget p.1 (i + n) + p.2 % 2 ^ 32) % 2 ^ 32) with hs2def
      have hset := limbsVal_set p.1 (i + n) ((lget p.1 (i + n) + p.2 % 2 ^ 32) % 2 ^ 32) hinlt
      rw [← hs2def] at hset
      rw [hv2] at hset
      rw [hg0] at hset
      have hs2val : limbsVal s2 = limbsVal s + ai * limbsVal bs * 2 ^ (32 * i) := by
        have h1 : limbsVal s2 + 0 * 2 ^ (32 * (i + n)) =
            limbsVal p.1 + p.2 * 2 ^ (32 * (i + n)) := hset
        have h2 : limbsVal p.1 + p.2 * 2 ^ (32 * (i + n)) =
            limbsVal s + (ai * limbsVal bs + 0) * 2 ^ (32 * i) := hval
        nlinarith [h1, h2]
      have hs2lt : allLt32 s2 := by
        rw [hs2def]
        exact allLt32_set _ _ _ hbound.1 (Nat.mod_lt _ (by norm_num))
      have hs2len : s2.length = 2 * n + 2 := by
        rw [hs2def, List.length_set, hflen, hsl]
      have hz2 : ∀ k, i + 1 + n ≤ k → lget s2 k = 0 := by
        intro k hk
        rw [hs2def, lget_set_ne _ _ _ _ (by omega),
          mulInner_frame ai bs s i 0 k (by rw [hbn]; omega)]
        exact hz k (by omega)
      have ih := mulOuter_spec arest bs s2 (i + 1) n hbn hs2len hin' harest hbs hs2lt hz2
      show limbsVal (mulOuter arest bs s2 (i + 1) n) =
          limbsVal s + limbsVal (ai :: arest) * limbsVal bs * 2 ^ (32 * i) ∧
        allLt32 (mulOuter arest bs s2 (i + 1) n) ∧
          (mulOuter arest bs s2 (i + 1) n).length = 2 * n + 2
      refine ⟨?_, ih.2.1, ih.2.2⟩
      rw [ih.1, hs2val, show limbsVal (ai :: arest) = ai + 2 ^ 32 * limbsVal arest from rfl]
      ring

/-- The bit-window identity behind the fixed-point extraction:
`(scratch[k] << 4 | scratch[k-1] >> 28) mod 2^32` equals bits
`32k-4 .. 32k+27` of the scratch value. -/
theorem extract_digit (P k : ℕ) (hk : 1 ≤ k) :
    (P / 2 ^ (32 * k) % 2 ^ 32 * 2 ^ 4 + P / 2 ^ (32 * (k - 1)) % 2 ^ 32 / 2 ^ 28) % 2 ^ 32 =
      P / 2 ^ (32 * k - 4) % 2 ^ 32 := by
  set T := P / 2 ^ (32 * (k - 1)) with hT
  have h1 : P / 2 ^ (32 * k) = T / 2 ^ 32 := by
    rw [hT, Nat.div_div_eq_div_mul, ← pow_add]
    congr 2
    omega
  have h2 : P / 2 ^ (32 * k - 4) = T / 2 ^ 28 := by
    rw [hT, Nat.div_div_eq_div_mul, ← pow_add]
    congr 2
    omega
  rw [h1, h2]
  have e4 : T / 2 ^ 28 = T % 2 ^ 32 / 2 ^ 28 + 2 ^ 4 * (T / 2 ^ 32) := by
    conv_lhs => rw [← Nat.mod_add_div T (2 ^ 32)]
    rw [show (2 : ℕ) ^ 32 * (T / 2 ^ 32) = 2 ^ 28 * (2 ^ 4 * (T / 2 ^ 32)) by ring]
    rw [Nat.add_mul_div_left _ _ (by norm_num : 0 < 2 ^ 28)]
  rw [e4]
  have e5 : (T / 2 ^ 32 % 2 ^ 32 * 2 ^ 4 + T % 2 ^ 32 / 2 ^ 28) % 2 ^ 32 =
      (T / 2 ^ 32 * 2 ^ 4 + T % 2 ^ 32 / 2 ^ 28) % 2 ^ 32 :=
    Nat.ModEq.add_right _ (Nat.ModEq.mul_right _ (Nat.mod_modEq _ _))
  rw [e5]
  congr 1
  ring

/-- The scratch buffer `bf_mul_schoolbook` computes has value
`|a| * |b|`, bounded digits, and full length. -/
theorem schoolbook_scratch (a b : BigFloat)
    (hlen : b.limbs.length = a.limbs.length)
    (ha : allLt32 a.limbs) (hb : allLt32 b.limbs) :
    limbsVal (mulOuter a.limbs b.limbs
          (List.replicate (2 * a.limbs.length + 2) 0) 0 a.limbs.length) =
        limbsVal a.limbs * limbsVal b.limbs ∧
      allLt32 (mulOuter a.limbs b.limbs
          (List.replicate (2 * a.limbs.length + 2) 0) 0 a.limbs.length) := by
  have h := mulOuter_spec a.limbs b.limbs (List.replicate (2 * a.limbs.length + 2) 0)
    0 a.limbs.length hlen (by simp) (by omega) ha hb (allLt32_replicate _)
    (fun k _ => lget_replicate _ k)
  refine ⟨?_, h.2.1⟩
  rw [h.1, limbsVal_replicate_zero]
  simp

/-- The schoolbook extraction window equals the spec's digit description. -/
theorem extractLimbs_eq_spec (a b : BigFloat)
    (hlen : b.limbs.length = a.limbs.length)
    (ha : allLt32 a.limbs) (hb : allLt32 b.limbs) :
    extractLimbs (mulOuter a.limbs b.limbs
          (List.replicate (2 * a.limbs.length + 2) 0) 0 a.limbs.length) a.limbs.length =
      mulSpecLimbs (limbsVal a.limbs * limbsVal b.limbs) a.limbs.length := by
  obtain ⟨hval, hlt⟩ := schoolbook_scratch a b hlen ha hb
  unfold extractLimbs mulSpecLimbs
  apply List.map_congr_left
  intro i hi
  have hi' : i < a.limbs.length := List.mem_range.mp hi
  rw [if_pos (by omega : 0 < a.limbs.length + i)]
  rw [lget_eq_digit _ hlt, lget_eq_digit _ hlt, hval]
  exact extract_digit _ (a.limbs.length + i) (by omega)

theorem bfMulSchoolbook_eq_spec (a b : BigFloat)
    (hlen : b.limbs.length = a.limbs.length)
    (ha : allLt32 a.limbs) (hb : allLt32 b.limbs) :
    bfMulSchoolbook a b = mulSpecNorm a b := by
  show (⟨extractLimbs (mulOuter a.limbs b.limbs
          (List.replicate (2 * a.limbs.length + 2) 0) 0 a.limbs.length) a.limbs.length, _⟩ :
      BigFloat) = _
  rw [extractLimbs_eq_spec a b hlen ha hb]
  rfl

/-- `bf_mul` always computes the schoolbook product: below the 16-limb
threshold it calls it directly, above it `bf_mul_karatsuba` falls back to
it. -/
theorem bfMul_eq_schoolbook (a b : BigFloat) : bfMul a b = bfMulSchoolbook a b := by
  unfold bfMul bfMulKaratsuba
  split <;> rfl

/-- C4 (amended): for every pair of same-`n` operands — every `n`, above
or below the 16-limb Karatsuba threshold — `bf_mul` produces exactly the
schoolbook fixed-point product: upper `n` limbs of the `2n`-limb
convolution shifted right 4 bits, sign the XOR of the operand signs
unless an operand is zero *or the extracted magnitude is all-zero*, in
which case the sign is zero.  The dispatch changes at most speed, never
the result. -/
theorem c4_mul_is_schoolbook_spec_product (a b : BigFloat)
    (hlen : b.limbs.length = a.limbs.length)
    (ha : allLt32 a.limbs) (hb : allLt32 b.limbs) :
    bfMul a b = mulSpecNorm a b ∧ bfMul a b = bfMulSchoolbook a b :=
  ⟨(bfMul_eq_schoolbook a b).trans (bfMulSchoolbook_eq_spec a b hlen ha hb),
    bfMul_eq_schoolbook a b⟩

/-- C4 fails in its literal sign clause: multiplying the nonzero values
with limbs `[1, 0]` (n = 2) underflows to an all-zero window, and
`bf_mul` renormalizes the sign to 0 while the literal "XOR of operand
signs unless an operand is zero" yields positive. -/
theorem c4_counterexample_sign_literal :
    bfMul ⟨[1, 0], 1⟩ ⟨[1, 0], 1⟩ ≠ mulSpecXor ⟨[1, 0], 1⟩ ⟨[1, 0], 1⟩ ∧
      (bfMul ⟨[1, 0], 1⟩ ⟨[1, 0], 1⟩).sign = 0 ∧
      (mulSpecXor ⟨[1, 0], 1⟩ ⟨[1, 0], 1⟩).sign = 1 := by
  refine ⟨?_, by decide, by decide⟩
  intro h
  have := congrArg BigFloat.sign h
  revert this
  decide

/-- Witness for `c4_mul_is_schoolbook_spec_product` at a 2-limb input. -/
theorem c4_witness :
    bfMul ⟨[5, 3], 1⟩ ⟨[7, 2], -1⟩ = mulSpecNorm ⟨[5, 3], 1⟩ ⟨[7, 2], -1⟩ :=
  (c4_mul_is_schoolbook_spec_product ⟨[5, 3], 1⟩ ⟨[7, 2], -1⟩ rfl
    (by unfold allLt32; decide) (by unfold allLt32; decide)).1

/-! ### C5: the escape loop of `mandelbrot_iterate` -/

theorem bfSqr_zero (n : ℕ) : bfSqr (bfZero n) = bfZero n := by
  unfold bfSqr bfZero
  simp only [List.length_replicate]
  rw [sqrOuter_zero _ _ (fun x hx => List.eq_of_mem_replicate hx),
    extractLimbs_replicate_zero]
  simp [List.all_eq_true]

theorem bfMulSchoolbook_zero (n : ℕ) : bfMulSchoolbook (bfZero n) (bfZero n) = bfZero n := by
  unfold bfMulSchoolbook bfZero
  simp only [List.length_replicate]
  rw [mulOuter_zero _ _ _ _ _ (fun x hx _ _ => by
      rw [List.eq_of_mem_replicate hx, Nat.zero_mul]),
    extractLimbs_replicate_zero]
  simp [List.all_eq_true]

theorem bfMul_zero (n : ℕ) : bfMul (bfZero n) (bfZero n) = bfZero n := by
  rw [bfMul_eq_schoolbook]
  exact bfMulSchoolbook_zero n

theorem doubleLimbs_zero (n : ℕ) : doubleLimbs (List.replicate n 0) 0 = List.replicate n 0 := by
  induction n with
  | zero => rfl
  | succ n ih => simp [List.replicate, doubleLimbs, ih]

theorem bfAdd_zero_zero (n : ℕ) : bfAdd (bfZero n) (bfZero n) = bfZero n := by
  simp [bfAdd, bfZero, bfCopy]

theorem bfSub_zero_zero (n : ℕ) : bfSub (bfZero n) (bfZero n) = bfZero n := by
  simp [bfSub, bfAdd, bfZero, bfCopy]

theorem mandelbrotStep_zero (n : ℕ) :
    mandelbrotStep (bfZero n) (bfZero n) (bfZero n) (bfZero n) = (bfZero n, bfZero n) := by
  simp only [mandelbrotStep, bfSqr_zero, bfMul_zero]
  have h3 : (⟨doubleLimbs (bfZero n).limbs 0, (bfZero n).sign⟩ : BigFloat) = bfZero n := by
    show (⟨doubleLimbs (List.replicate n 0) 0, 0⟩ : BigFloat) = _
    rw [doubleLimbs_zero]
    rfl
  rw [h3, bfAdd_zero_zero, bfSub_zero_zero, bfAdd_zero_zero]

theorem zSeq_const_zero (n : ℕ) : ∀ k, zSeq (bfZero n) (bfZero n) n k = (bfZero n, bfZero n)
  | 0 => rfl
  | k + 1 => by
      show mandelbrotStep (zSeq (bfZero n) (bfZero n) n k).1
        (zSeq (bfZero n) (bfZero n) n k).2 (bfZero n) (bfZero n) = _
      rw [zSeq_const_zero n k]
      exact mandelbrotStep_zero n

theorem bfToD_bfZero (n : ℕ) : bfToD (bfZero n) = 0 := by
  simp [bfToD, bfZero]

theorem bfEscaped_zero (n : ℕ) (t : ℚ) (ht : 0 ≤ t) :
    bfEscaped (bfZero n) (bfZero n) t = false := by
  unfold bfEscaped
  split
  · rfl
  · rw [bfToD_bfZero]
    simp
    linarith

theorem bfFromStr_zero_char (n : ℕ) : bfFromStr ['0'] n = bfZero n := by
  have h1 : intLoop 0 ['0'] = (0, []) := by
    show (if isDigitCh '0' then
        intLoop (0 * 10 + ((('0'.toNat - '0'.toNat : ℕ)) : ℚ)) [] else (0, ['0'])) = (0, [])
    rw [if_pos (by decide)]
    norm_num [intLoop]
  simp [bfFromStr, signSplit, h1, fracSegment, bfSetD]

theorem iterLoop_spec (cr ci : BigFloat) (n : ℕ) : ∀ (k j : ℕ),
    iterLoop cr ci k (zSeq cr ci n j).1 (zSeq cr ci n j).2 ≤ k ∧
      (iterLoop cr ci k (zSeq cr ci n j).1 (zSeq cr ci n j).2 < k →
        bfEscaped (zSeq cr ci n (j + iterLoop cr ci k (zSeq cr ci n j).1 (zSeq cr ci n j).2)).1
            (zSeq cr ci n (j + iterLoop cr ci k (zSeq cr ci n j).1 (zSeq cr ci n j).2)).2 4
            = true ∧
          ∀ t, t < iterLoop cr ci k (zSeq cr ci n j).1 (zSeq cr ci n j).2 →
            bfEscaped (zSeq cr ci n (j + t)).1 (zSeq cr ci n (j + t)).2 4 = false) ∧
      (iterLoop cr ci k (zSeq cr ci n j).1 (zSeq cr ci n j).2 = k →
        ∀ t, t < k → bfEscaped (zSeq cr ci n (j + t)).1 (zSeq cr ci n (j + t)).2 4 = false)
  | 0, j => by
      refine ⟨le_rfl, fun h => absurd h (by omega), fun _ t ht => absurd ht (by omega)⟩
  | k + 1, j => by
      by_cases hesc : bfEscaped (zSeq cr ci n j).1 (zSeq cr ci n j).2 4 = true
      · have hr : iterLoop cr ci (k + 1) (zSeq cr ci n j).1 (zSeq cr ci n j).2 = 0 := by
          unfold iterLoop
          rw [if_pos hesc]
        rw [hr]
        refine ⟨by omega, fun _ => ⟨by simpa using hesc, fun t ht => absurd ht (by omega)⟩,
          fun h => absurd h.symm (by omega)⟩
      · have hstep : mandelbrotStep (zSeq cr ci n j).1 (zSeq cr ci n j).2 cr ci =
            zSeq cr ci n (j + 1) := rfl
        have hr : iterLoop cr ci (k + 1) (zSeq cr ci n j).1 (zSeq cr ci n j).2 =
            iterLoop cr ci k (zSeq cr ci n (j + 1)).1 (zSeq cr ci n (j + 1)).2 + 1 := by
          show (if bfEscaped (zSeq cr ci n j).1 (zSeq cr ci n j).2 4 then 0
            else iterLoop cr ci k
              (mandelbrotStep (zSeq cr ci n j).1 (zSeq cr ci n j).2 cr ci).1
              (mandelbrotStep (zSeq cr ci n j).1 (zSeq cr ci n j).2 cr ci).2 + 1) = _
          rw [if_neg hesc, hstep]
        have ih := iterLoop_spec cr ci n k (j + 1)
        rw [hr]
        set r := iterLoop cr ci k (zSeq cr ci n (j + 1)).1 (zSeq cr ci n (j + 1)).2 with hrdef
        refine ⟨by omega, fun h => ?_, fun h => ?_⟩
        · have hlt : r < k := by omega
          have h1 := ih.2.1 hlt
          constructor
          · have e : j + 1 + r = j + (r + 1) := by omega
            rw [e] at h1
            exact h1.1
          · intro t ht
            cases t with
            | zero =>
                simpa using (by simpa using hesc : bfEscaped (zSeq cr ci n j).1
                  (zSeq cr ci n j).2 4 = false)
            | succ t' =>
                have ht' : t' < r := by omega
                have := h1.2 t' ht'
                have e : j + 1 + t' = j + (t' + 1) := by omega
                rw [e] at this
                exact this
        · have hk : r = k := by omega
          have h2 := ih.2.2 hk
          intro t ht
          cases t with
          | zero => simpa using hesc
          | succ t' =>
              have ht' : t' < k := by omega
              have := h2 t' ht'
              have e : j + 1 + t' = j + (t' + 1) := by omega
              rw [e] at this
              exact this

/-- C5: `mandelbrot_iterate` parses both coordinates, starts from
`z = 0`, tests `bf_escaped(zr, zi, 4.0)` before each step, and returns
the first loop index at which the test fires, or `max_iter` when it never
does; in particular `iterate("0", "0", max_iter, n) = max_iter` for every
`max_iter` and `n` (the origin never escapes: `z` stays exactly 0). -/
theorem c5_iterate_first_escape :
    (∀ (crs cis : List Char) (maxIter n : ℕ),
      mandelbrotIterate crs cis maxIter n ≤ maxIter ∧
        (mandelbrotIterate crs cis maxIter n < maxIter →
          bfEscaped
              (zSeq (bfFromStr crs n) (bfFromStr cis n) n (mandelbrotIterate crs cis maxIter n)).1
              (zSeq (bfFromStr crs n) (bfFromStr cis n) n (mandelbrotIterate crs cis maxIter n)).2
              4 = true ∧
            ∀ t, t < mandelbrotIterate crs cis maxIter n →
              bfEscaped (zSeq (bfFromStr crs n) (bfFromStr cis n) n t).1
                (zSeq (bfFromStr crs n) (bfFromStr cis n) n t).2 4 = false) ∧
        (mandelbrotIterate crs cis maxIter n = maxIter →
          ∀ t, t < maxIter →
            bfEscaped (zSeq (bfFromStr crs n) (bfFromStr cis n) n t).1
              (zSeq (bfFromStr crs n) (bfFromStr cis n) n t).2 4 = false)) ∧
      ∀ (maxIter n : ℕ), mandelbrotIterate ['0'] ['0'] maxIter n = maxIter := by
  constructor
  · intro crs cis maxIter n
    have h := iterLoop_spec (bfFromStr crs n) (bfFromStr cis n) n maxIter 0
    have hit : mandelbrotIterate crs cis maxIter n =
        iterLoop (bfFromStr crs n) (bfFromStr cis n) maxIter
          (zSeq (bfFromStr crs n) (bfFromStr cis n) n 0).1
          (zSeq (bfFromStr crs n) (bfFromStr cis n) n 0).2 := rfl
    rw [hit]
    simpa using h
  · intro maxIter n
    have h := iterLoop_spec (bfFromStr ['0'] n) (bfFromStr ['0'] n) n maxIter 0
    have hit : mandelbrotIterate ['0'] ['0'] maxIter n =
        iterLoop (bfFromStr ['0'] n) (bfFromStr ['0'] n) maxIter
          (zSeq (bfFromStr ['0'] n) (bfFromStr ['0'] n) n 0).1
          (zSeq (bfFromStr ['0'] n) (bfFromStr ['0'] n) n 0).2 := rfl
    rw [hit]
    by_contra hne
    have hlt : iterLoop (bfFromStr ['0'] n) (bfFromStr ['0'] n) maxIter
        (zSeq (bfFromStr ['0'] n) (bfFromStr ['0'] n) n 0).1
        (zSeq (bfFromStr ['0'] n) (bfFromStr ['0'] n) n 0).2 < maxIter := by
      rcases Nat.lt_or_ge (iterLoop _ _ _ _ _) maxIter with h' | h'
      · exact h'
      · exact absurd (Nat.le_antisymm h.1 h') hne
    have hescc := (h.2.1 hlt).1
    rw [bfFromStr_zero_char, zSeq_const_zero] at hescc
    rw [bfEscaped_zero n 4 (by norm_num)] at hescc
    exact Bool.false_ne_true hescc

/-- Witness for `c5_iterate_first_escape`: the origin runs all 3
iterations at `n = 2`. -/
theorem c5_witness : mandelbrotIterate ['0'] ['0'] 3 2 = 3 :=
  c5_iterate_first_escape.2 3 2

theorem orbAuxAt_succ (cr ci : BigFloat) (n k i : ℕ) :
    orbAuxAt cr ci n (k + 1) i =
      if looseEscape cr ci n (i + 1) then
        ⟨[bfToD (zSeq cr ci n (i + 1)).1], [bfToD (zSeq cr ci n (i + 1)).2], some 1⟩
      else
        ⟨bfToD (zSeq cr ci n (i + 1)).1 :: (orbAuxAt cr ci n k (i + 1)).re,
          bfToD (zSeq cr ci n (i + 1)).2 :: (orbAuxAt cr ci n k (i + 1)).im,
          (orbAuxAt cr ci n k (i + 1)).esc.map (· + 1)⟩ := by
  rfl

theorem orbAuxAt_spec (cr ci : BigFloat) (n : ℕ) : ∀ (k i : ℕ),
    (orbAuxAt cr ci n k i).im.length = (orbAuxAt cr ci n k i).re.length ∧
      (∀ j, j < (orbAuxAt cr ci n k i).re.length →
        (orbAuxAt cr ci n k i).re.getD j 0 = bfToD (zSeq cr ci n (i + 1 + j)).1 ∧
          (orbAuxAt cr ci n k i).im.getD j 0 = bfToD (zSeq cr ci n (i + 1 + j)).2) ∧
      ((orbAuxAt cr ci n k i).esc = none →
        (orbAuxAt cr ci n k i).re.length = k ∧
          ∀ j, i + 1 ≤ j → j ≤ i + k → ¬ looseEscape cr ci n j) ∧
      (∀ m, (orbAuxAt cr ci n k i).esc = some m →
        (orbAuxAt cr ci n k i).re.length = m ∧ 1 ≤ m ∧ m ≤ k ∧
          looseEscape cr ci n (i + m) ∧
          ∀ j, i + 1 ≤ j → j < i + m → ¬ looseEscape cr ci n j)
  | 0, i => by
      refine ⟨rfl, fun j hj => absurd hj (by simp [orbAuxAt, refOrbitAux]), ?_, ?_⟩
      · intro _
        exact ⟨rfl, fun j h1 h2 => absurd (le_trans h1 h2) (by omega)⟩
      · intro m hm
        exact absurd hm (by simp [orbAuxAt, refOrbitAux])
  | k + 1, i => by
      rw [orbAuxAt_succ]
      by_cases hesc : looseEscape cr ci n (i + 1)
      · rw [if_pos hesc]
        refine ⟨rfl, ?_, ?_, ?_⟩
        · intro j hj
          have : j = 0 := by simpa using hj
          subst this
          exact ⟨rfl, rfl⟩
        · intro h
          exact absurd h (by simp)
        · intro m hm
          have hm1 : m = 1 := by simpa using hm.symm
          subst hm1
          refine ⟨rfl, le_rfl, by omega, by simpa using hesc, ?_⟩
          intro j h1 h2
          omega
      · rw [if_neg hesc]
        have ih := orbAuxAt_spec cr ci n k (i + 1)
        refine ⟨?_, ?_, ?_, ?_⟩
        · simpa using ih.1
        · intro j hj
          cases j with
          | zero => exact ⟨rfl, rfl⟩
          | succ j' =>
              have hj' : j' < (orbAuxAt cr ci n k (i + 1)).re.length := by
                simpa using hj
              have h2 := ih.2.1 j' hj'
              have e : i + 1 + 1 + j' = i + 1 + (j' + 1) := by omega
              rw [e] at h2
              exact ⟨h2.1, h2.2⟩
        · intro hnone
          have hnone' : (orbAuxAt cr ci n k (i + 1)).esc = none := by
            simpa [Option.map_eq_none'] using hnone
          have h3 := ih.2.2.1 hnone'
          refine ⟨by simpa using h3.1, ?_⟩
          intro j h1 h2
          rcases Nat.eq_or_lt_of_le h1 with he | hlt
          · rw [← he]
            exact hesc
          · exact h3.2 j (by omega) (by omega)
        · intro m hm
          have hm' : ∃ m', (orbAuxAt cr ci n k (i + 1)).esc = some m' ∧ m' + 1 = m := by
            simpa [Option.map_eq_some'] using hm
          obtain ⟨m', hm'e, hm'm⟩ := hm'
          have h4 := ih.2.2.2 m' hm'e
          subst hm'm
          refine ⟨by simpa using h4.1, by omega, by omega, ?_, ?_⟩
          · have e : i + 1 + m' = i + (m' + 1) := by omega
            rw [e] at h4
            exact h4.2.2.2.1
          · intro j h1 h2
            rcases Nat.eq_or_lt_of_le h1 with he | hlt
            · rw [← he]
              exact hesc
            · exact h4.2.2.2.2 j (by omega) (by omega)

/-- C6: `compute_reference_orbit` stores `(0,0)` at orbit index 0,
records the down-converted `(zr, zi)` pair after every step, uses the
loose escape test `|z|² > 1e16`, sets `escape_iter` to the 1-based orbit
index of the first escaping step (else `-1`), and returns the number of
steps actually computed: the escape index on escape, else `max_iter`. -/
theorem c6_reference_orbit (crs cis : List Char) (maxIter n : ℕ) :
    (computeReferenceOrbit crs cis maxIter n).re.length =
        (computeReferenceOrbit crs cis maxIter n).steps + 1 ∧
      (computeReferenceOrbit crs cis maxIter n).im.length =
        (computeReferenceOrbit crs cis maxIter n).steps + 1 ∧
      (computeReferenceOrbit crs cis maxIter n).re.getD 0 0 = 0 ∧
      (computeReferenceOrbit crs cis maxIter n).im.getD 0 0 = 0 ∧
      (∀ j, j ≤ (computeReferenceOrbit crs cis maxIter n).steps →
        (computeReferenceOrbit crs cis maxIter n).re.getD j 0 =
            bfToD (zSeq (bfFromStr crs n) (bfFromStr cis n) n j).1 ∧
          (computeReferenceOrbit crs cis maxIter n).im.getD j 0 =
            bfToD (zSeq (bfFromStr crs n) (bfFromStr cis n) n j).2) ∧
      ((computeReferenceOrbit crs cis maxIter n).escapeIter = -1 ∧
          (computeReferenceOrbit crs cis maxIter n).steps = maxIter ∧
          (∀ j, 1 ≤ j → j ≤ maxIter →
            ¬ looseEscape (bfFromStr crs n) (bfFromStr cis n) n j) ∨
        (computeReferenceOrbit crs cis maxIter n).escapeIter =
            ((computeReferenceOrbit crs cis maxIter n).steps : ℤ) ∧
          1 ≤ (computeReferenceOrbit crs cis maxIter n).steps ∧
          (computeReferenceOrbit crs cis maxIter n).steps ≤ maxIter ∧
          looseEscape (bfFromStr crs n) (bfFromStr cis n) n
            (computeReferenceOrbit crs cis maxIter n).steps ∧
          ∀ j, 1 ≤ j → j < (computeReferenceOrbit crs cis maxIter n).steps →
            ¬ looseEscape (bfFromStr crs n) (bfFromStr cis n) n j) := by
  have h := orbAuxAt_spec (bfFromStr crs n) (bfFromStr cis n) n maxIter 0
  have hR : computeReferenceOrbit crs cis maxIter n =
      ⟨0 :: (orbAuxAt (bfFromStr crs n) (bfFromStr cis n) n maxIter 0).re,
        0 :: (orbAuxAt (bfFromStr crs n) (bfFromStr cis n) n maxIter 0).im,
        match (orbAuxAt (bfFromStr crs n) (bfFromStr cis n) n maxIter 0).esc with
          | none => -1 | some j => (j : ℤ),
        match (orbAuxAt (bfFromStr crs n) (bfFromStr cis n) n maxIter 0).esc with
          | none => maxIter | some j => j⟩ := rfl
  set t := orbAuxAt (bfFromStr crs n) (bfFromStr cis n) n maxIter 0 with htdef
  have hjj : ∀ j, j < t.re.length + 1 →
      (0 :: t.re).getD j 0 = bfToD (zSeq (bfFromStr crs n) (bfFromStr cis n) n j).1 ∧
        (0 :: t.im).getD j 0 = bfToD (zSeq (bfFromStr crs n) (bfFromStr cis n) n j).2 := by
    intro j hjlt
    cases j with
    | zero =>
        constructor
        · show (0 : ℚ) = bfToD (zSeq (bfFromStr crs n) (bfFromStr cis n) n 0).1
          rw [show zSeq (bfFromStr crs n) (bfFromStr cis n) n 0 =
            (bfZero n, bfZero n) from rfl]
          exact (bfToD_bfZero n).symm
        · show (0 : ℚ) = bfToD (zSeq (bfFromStr crs n) (bfFromStr cis n) n 0).2
          rw [show zSeq (bfFromStr crs n) (bfFromStr cis n) n 0 =
            (bfZero n, bfZero n) from rfl]
          exact (bfToD_bfZero n).symm
    | succ j' =>
        have hj' : j' < t.re.length := by omega
        have h2 := h.2.1 j' hj'
        have e : 0 + 1 + j' = j' + 1 := by omega
        rw [e] at h2
        exact ⟨h2.1, h2.2⟩
  rcases hesc : t.esc with _ | m
  · have h3 := h.2.2.1 hesc
    rw [hR]
    simp only [hesc]
    refine ⟨?_, ?_, rfl, rfl, ?_, Or.inl ⟨?_, ?_, ?_⟩⟩
    · show (0 :: t.re).length = maxIter + 1
      simp [h3.1]
    · show (0 :: t.im).length = maxIter + 1
      simp [h.1, h3.1]
    · intro j hj
      refine hjj j ?_
      have h5 : j ≤ maxIter := hj
      have h6 := h3.1
      omega
    · trivial
    · first
        | exact h3.1
        | trivial
    · intro j h1 h2
      exact h3.2 j (by omega) (by omega)
  · have h4 := h.2.2.2 m hesc
    rw [hR]
    simp only [hesc]
    refine ⟨?_, ?_, rfl, rfl, ?_, Or.inr ⟨by trivial, h4.2.1, h4.2.2.1, ?_, ?_⟩⟩
    · show (0 :: t.re).length = m + 1
      simp [h4.1]
    · show (0 :: t.im).length = m + 1
      simp [h.1, h4.1]
    · intro j hj
      refine hjj j ?_
      have h5 : j ≤ m := hj
      have h6 := h4.1
      omega
    · have := h4.2.2.2.1
      simpa using this
    · intro j h1 h2
      exact h4.2.2.2.2 j (by omega) (by omega)

/-- Witness for `c6_reference_orbit` at the origin. -/
theorem c6_witness :
    (computeReferenceOrbit ['0'] ['0'] 2 1).re.getD 0 0 =
        bfToD (zSeq (bfFromStr ['0'] 1) (bfFromStr ['0'] 1) 1 0).1 ∧
      (computeReferenceOrbit ['0'] ['0'] 2 1).im.getD 0 0 =
        bfToD (zSeq (bfFromStr ['0'] 1) (bfFromStr ['0'] 1) 1 0).2 :=
  (c6_reference_orbit ['0'] ['0'] 2 1).2.2.2.2.1 0 (Nat.zero_le _)

theorem extAuxAt_succ (cr ci : BigFloat) (n k i : ℕ) :
    extAuxAt cr ci n (k + 1) i =
      if looseEscape cr ci n (i + 1) then
        ⟨[bfToD (zSeq cr ci n (i + 1)).1], [bfToD (zSeq cr ci n (i + 1)).2],
          [bfToD (bfSqr (zSeq cr ci n i).1) - bfToD (bfSqr (zSeq cr ci n i).2)],
          [2 * bfToD (zSeq cr ci n i).1 * bfToD (zSeq cr ci n i).2], some 1⟩
      else
        ⟨bfToD (zSeq cr ci n (i + 1)).1 :: (extAuxAt cr ci n k (i + 1)).re,
          bfToD (zSeq cr ci n (i + 1)).2 :: (extAuxAt cr ci n k (i + 1)).im,
          (bfToD (bfSqr (zSeq cr ci n i).1) - bfToD (bfSqr (zSeq cr ci n i).2)) ::
            (extAuxAt cr ci n k (i + 1)).z2re,
          (2 * bfToD (zSeq cr ci n i).1 * bfToD (zSeq cr ci n i).2) ::
            (extAuxAt cr ci n k (i + 1)).z2im,
          (extAuxAt cr ci n k (i + 1)).esc.map (· + 1)⟩ := by
  rfl

theorem extAuxAt_spec (cr ci : BigFloat) (n : ℕ) : ∀ (k i : ℕ),
    (extAuxAt cr ci n k i).im.length = (extAuxAt cr ci n k i).re.length ∧
      (extAuxAt cr ci n k i).z2re.length = (extAuxAt cr ci n k i).re.length ∧
      (extAuxAt cr ci n k i).z2im.length = (extAuxAt cr ci n k i).re.length ∧
      (∀ j, j < (extAuxAt cr ci n k i).re.length →
        (extAuxAt cr ci n k i).re.getD j 0 = bfToD (zSeq cr ci n (i + 1 + j)).1 ∧
          (extAuxAt cr ci n k i).im.getD j 0 = bfToD (zSeq cr ci n (i + 1 + j)).2 ∧
          (extAuxAt cr ci n k i).z2re.getD j 0 =
            bfToD (bfSqr (zSeq cr ci n (i + j)).1) -
              bfToD (bfSqr (zSeq cr ci n (i + j)).2) ∧
          (extAuxAt cr ci n k i).z2im.getD j 0 =
            2 * bfToD (zSeq cr ci n (i + j)).1 * bfToD (zSeq cr ci n (i + j)).2) ∧
      ((extAuxAt cr ci n k i).esc = none → (extAuxAt cr ci n k i).re.length = k) ∧
      (∀ m, (extAuxAt cr ci n k i).esc = some m →
        (extAuxAt cr ci n k i).re.length = m ∧ 1 ≤ m)
  | 0, i => by
      refine ⟨rfl, rfl, rfl,
        fun j hj => absurd hj (by simp [extAuxAt, refOrbitExtAux]), ?_, ?_⟩
      · intro _
        rfl
      · intro m hm
        exact absurd hm (by simp [extAuxAt, refOrbitExtAux])
  | k + 1, i => by
      rw [extAuxAt_succ]
      by_cases hesc : looseEscape cr ci n (i + 1)
      · rw [if_pos hesc]
        refine ⟨rfl, rfl, rfl, ?_, ?_, ?_⟩
        · intro j hj
          have : j = 0 := by simpa using hj
          subst this
          exact ⟨rfl, rfl, rfl, rfl⟩
        · intro h
          exact absurd h (by simp)
        · intro m hm
          have hm1 : m = 1 := by simpa using hm.symm
          subst hm1
          exact ⟨rfl, le_rfl⟩
      · rw [if_neg hesc]
        have ih := extAuxAt_spec cr ci n k (i + 1)
        refine ⟨?_, ?_, ?_, ?_, ?_, ?_⟩
        · simpa using ih.1
        · simpa using ih.2.1
        · simpa using ih.2.2.1
        · intro j hj
          cases j with
          | zero => exact ⟨rfl, rfl, rfl, rfl⟩
          | succ j' =>
              have hj' : j' < (extAuxAt cr ci n k (i + 1)).re.length := by
                simpa using hj
              have h2 := ih.2.2.2.1 j' hj'
              have e1 : i + 1 + 1 + j' = i + 1 + (j' + 1) := by omega
              have e2 : i + 1 + j' = i + (j' + 1) := by omega
              rw [e1, e2] at h2
              exact h2
        · intro hnone
          have hnone' : (extAuxAt cr ci n k (i + 1)).esc = none := by
            simpa [Option.map_eq_none'] using hnone
          have h3 := ih.2.2.2.2.1 hnone'
          simpa using h3
        · intro m hm
          have hm' : ∃ m', (extAuxAt cr ci n k (i + 1)).esc = some m' ∧ m' + 1 = m := by
            simpa [Option.map_eq_some'] using hm
          obtain ⟨m', hm'e, hm'm⟩ := hm'
          have h4 := ih.2.2.2.2.2 m' hm'e
          subst hm'm
          exact ⟨by simpa using h4.1, by omega⟩

/-- C7: in `compute_reference_orbit_extended`, for every recorded index
`i+1` before the loop stops, the stored `Z²` imaginary part equals
`2 * orbit_re_out[i] * orbit_im_out[i]` — twice the product of the
previous step's down-converted orbit entries, which are the down-converted
pre-step `z` — while the stored `Z²` real part is the difference of the
down-converted fixed-point squares of the pre-step `z`. -/
theorem c7_extended_z2_from_previous_entries (crs cis : List Char) (maxIter n : ℕ) :
    ∀ i, i < (computeReferenceOrbitExtended crs cis maxIter n).steps →
      ((computeReferenceOrbitExtended crs cis maxIter n).re.getD i 0 =
          bfToD (zSeq (bfFromStr crs n) (bfFromStr cis n) n i).1 ∧
        (computeReferenceOrbitExtended crs cis maxIter n).im.getD i 0 =
          bfToD (zSeq (bfFromStr crs n) (bfFromStr cis n) n i).2) ∧
      (computeReferenceOrbitExtended crs cis maxIter n).z2im.getD (i + 1) 0 =
        2 * (computeReferenceOrbitExtended crs cis maxIter n).re.getD i 0 *
          (computeReferenceOrbitExtended crs cis maxIter n).im.getD i 0 ∧
      (computeReferenceOrbitExtended crs cis maxIter n).z2re.getD (i + 1) 0 =
        bfToD (bfSqr (zSeq (bfFromStr crs n) (bfFromStr cis n) n i).1) -
          bfToD (bfSqr (zSeq (bfFromStr crs n) (bfFromStr cis n) n i).2) := by
  have h := extAuxAt_spec (bfFromStr crs n) (bfFromStr cis n) n maxIter 0
  have harg : extAuxAt (bfFromStr crs n) (bfFromStr cis n) n maxIter 0 =
      refOrbitExtAux (bfFromStr crs n) (bfFromStr cis n) maxIter (bfZero n) (bfZero n)
        0 0 := by
    show refOrbitExtAux (bfFromStr crs n) (bfFromStr cis n) maxIter (bfZero n) (bfZero n)
        (bfToD (bfZero n)) (bfToD (bfZero n)) =
      refOrbitExtAux (bfFromStr crs n) (bfFromStr cis n) maxIter (bfZero n) (bfZero n) 0 0
    rw [bfToD_bfZero]
  set t := extAuxAt (bfFromStr crs n) (bfFromStr cis n) n maxIter 0 with htdef
  have hE : computeReferenceOrbitExtended crs cis maxIter n =
      ⟨0 :: t.re, 0 :: t.im, 0 :: t.z2re, 0 :: t.z2im,
        match t.esc with | none => -1 | some j => (j : ℤ),
        match t.esc with | none => maxIter | some j => j⟩ := by
    simp only [computeReferenceOrbitExtended]
    rw [← harg]
  have hlen : (match t.esc with | none => maxIter | some j => j) = t.re.length := by
    rcases he : t.esc with _ | m
    · exact (h.2.2.2.2.1 he).symm
    · exact ((h.2.2.2.2.2 m he).1).symm
  intro i hi
  rw [hE] at hi
  have hsteps : i < t.re.length := by
    rw [← hlen]
    exact hi
  have hre : (0 :: t.re).getD i 0 =
      bfToD (zSeq (bfFromStr crs n) (bfFromStr cis n) n i).1 := by
    cases i with
    | zero =>
        show (0 : ℚ) = bfToD (zSeq (bfFromStr crs n) (bfFromStr cis n) n 0).1
        rw [show zSeq (bfFromStr crs n) (bfFromStr cis n) n 0 =
          (bfZero n, bfZero n) from rfl]
        exact (bfToD_bfZero n).symm
    | succ i' =>
        have hi' : i' < t.re.length := by omega
        have h2 := (h.2.2.2.1 i' hi').1
        have e : 0 + 1 + i' = i' + 1 := by omega
        rw [e] at h2
        simpa using h2
  have him : (0 :: t.im).getD i 0 =
      bfToD (zSeq (bfFromStr crs n) (bfFromStr cis n) n i).2 := by
    cases i with
    | zero =>
        show (0 : ℚ) = bfToD (zSeq (bfFromStr crs n) (bfFromStr cis n) n 0).2
        rw [show zSeq (bfFromStr crs n) (bfFromStr cis n) n 0 =
          (bfZero n, bfZero n) from rfl]
        exact (bfToD_bfZero n).symm
    | succ i' =>
        have hi' : i' < t.re.length := by omega
        have h2 := (h.2.2.2.1 i' hi').2.1
        have e : 0 + 1 + i' = i' + 1 := by omega
        rw [e] at h2
        simpa using h2
  have hent := h.2.2.2.1 i hsteps
  have e0 : 0 + i = i := by omega
  rw [e0] at hent
  rw [hE]
  refine ⟨⟨hre, him⟩, ?_, ?_⟩
  · show (0 :: t.z2im).getD (i + 1) 0 =
      2 * (0 :: t.re).getD i 0 * (0 :: t.im).getD i 0
    rw [hre, him, List.getD_cons_succ]
    exact hent.2.2.2
  · show (0 :: t.z2re).getD (i + 1) 0 =
      bfToD (bfSqr (zSeq (bfFromStr crs n) (bfFromStr cis n) n i).1) -
        bfToD (bfSqr (zSeq (bfFromStr crs n) (bfFromStr cis n) n i).2)
    rw [List.getD_cons_succ]
    exact hent.2.2.1

set_option maxRecDepth 2000 in
/-- Witness for `c7_extended_z2_from_previous_entries` at the origin with
one iteration. -/
theorem c7_witness :
    0 < (computeReferenceOrbitExtended ['0'] ['0'] 1 1).steps ∧
      (computeReferenceOrbitExtended ['0'] ['0'] 1 1).z2im.getD 1 0 =
        2 * (computeReferenceOrbitExtended ['0'] ['0'] 1 1).re.getD 0 0 *
          (computeReferenceOrbitExtended ['0'] ['0'] 1 1).im.getD 0 0 :=
  ⟨by with_unfolding_all decide,
    ((c7_extended_z2_from_previous_entries ['0'] ['0'] 1 1) 0
      (by with_unfolding_all decide)).2.1⟩

theorem dropWhile_spaces_append (sp l : List Char) (h : ∀ c ∈ sp, c = ' ') :
    (sp ++ l).dropWhile (· == ' ') = l.dropWhile (· == ' ') := by
  induction sp with
  | nil => rfl
  | cons c cs ih =>
      have hc : c = ' ' := h c (by simp)
      subst hc
      rw [List.cons_append, List.dropWhile_cons]
      simp only [beq_self_eq_true, if_true]
      exact ih (fun c hc => h c (by simp [hc]))

theorem dropWhile_spaces_of_head (l : List Char)
    (h : ∀ c, l.head? = some c → c ≠ ' ') : l.dropWhile (· == ' ') = l := by
  cases l with
  | nil => rfl
  | cons c cs =>
      have hc := h c rfl
      simp [List.dropWhile_cons, hc]

theorem signSplit_no_sign (l : List Char)
    (h : ∀ c, l.head? = some c → c ≠ '-' ∧ c ≠ '+') : signSplit l = (false, l) := by
  cases l with
  | nil => rfl
  | cons c cs =>
      have hc := h c rfl
      simp [signSplit, hc.1, hc.2]

theorem isDigit_ne (c : Char) (h : isDigitCh c = true) :
    c ≠ ' ' ∧ c ≠ '+' ∧ c ≠ '-' ∧ c ≠ '.' := by
  refine ⟨?_, ?_, ?_, ?_⟩ <;> rintro rfl <;> revert h <;> decide

theorem intLoop_append : ∀ (ds : List Char), (∀ c ∈ ds, isDigitCh c = true) →
    ∀ (acc : ℚ) (l : List Char), (∀ c, l.head? = some c → isDigitCh c = false) →
      intLoop acc (ds ++ l) = ((intLoop acc ds).1, l)
  | [], _, acc, l, hl => by
      cases l with
      | nil => rfl
      | cons c cs => simp [intLoop, hl c rfl]
  | d :: ds, hds, acc, l, hl => by
      have hd : isDigitCh d = true := hds d (by simp)
      have ihh := intLoop_append ds (fun c hc => hds c (by simp [hc]))
        (acc * 10 + ((d.toNat - '0'.toNat : ℕ) : ℚ)) l hl
      simp only [List.cons_append, intLoop, hd, if_true]
      exact ihh

theorem fracLoop_append : ∀ (ds : List Char), (∀ c ∈ ds, isDigitCh c = true) →
    ∀ (frac scale : ℚ) (l : List Char), (∀ c, l.head? = some c → isDigitCh c = false) →
      fracLoop frac scale (ds ++ l) = ((fracLoop frac scale ds).1, l)
  | [], _, frac, scale, l, hl => by
      cases l with
      | nil => rfl
      | cons c cs => simp [fracLoop, hl c rfl]
  | d :: ds, hds, frac, scale, l, hl => by
      have hd : isDigitCh d = true := hds d (by simp)
      have ihh := fracLoop_append ds (fun c hc => hds c (by simp [hc]))
        (frac + ((d.toNat - '0'.toNat : ℕ) : ℚ) * scale) (scale / 10) l hl
      simp only [List.cons_append, fracLoop, hd, if_true]
      exact ihh

theorem fracSegment_no_dot (l : List Char)
    (h : ∀ c, l.head? = some c → c ≠ '.') : fracSegment l = (0, l) := by
  cases l with
  | nil => rfl
  | cons c cs =>
      have hc := h c rfl
      rw [fracSegment.eq_def]
      split
      · rename_i heq
        exact absurd (List.head_eq_of_cons_eq heq.symm).symm hc
      · rfl

theorem bfFromStr_split
    (sp sgn ds fds fr rest : List Char) (n : ℕ)
    (hsp : ∀ c ∈ sp, c = ' ')
    (hsgn : sgn = [] ∨ sgn = ['+'] ∨ sgn = ['-'])
    (hds : ∀ c ∈ ds, isDigitCh c = true)
    (hfr : fr = [] ∨ ((∀ c ∈ fds, isDigitCh c = true) ∧ fr = '.' :: fds))
    (hrest : ∀ c, rest.head? = some c → isDigitCh c = false ∧
      (fr = [] → c ≠ '.') ∧
      (sgn = [] ∧ ds = [] ∧ fr = [] → c ≠ ' ' ∧ c ≠ '+' ∧ c ≠ '-')) :
    bfFromStr (sp ++ (sgn ++ (ds ++ (fr ++ rest)))) n =
      (if sgn = ['-'] then
        ⟨(bfSetD ((intLoop 0 ds).1 + (fracSegment fr).1) n).limbs,
          -(bfSetD ((intLoop 0 ds).1 + (fracSegment fr).1) n).sign⟩
      else bfSetD ((intLoop 0 ds).1 + (fracSegment fr).1) n) := by
  have hfrh : ∀ c, (fr ++ rest).head? = some c → isDigitCh c = false := by
    rcases hfr with rfl | ⟨hfds, rfl⟩
    · intro c hc
      rw [List.nil_append] at hc
      exact (hrest c hc).1
    · intro c hc
      rw [List.cons_append] at hc
      obtain rfl : '.' = c := by simpa using hc
      decide
  have hfracseg : fracSegment (fr ++ rest) = ((fracSegment fr).1, rest) := by
    rcases hfr with rfl | ⟨hfds, rfl⟩
    · rw [List.nil_append,
        fracSegment_no_dot rest (fun c hc => ((hrest c hc).2.1 rfl))]
      rfl
    · rw [List.cons_append]
      show fracLoop 0 (1 / 10) (fds ++ rest) = ((fracLoop 0 (1 / 10) fds).1, rest)
      exact fracLoop_append fds hfds 0 (1 / 10) rest (fun c hc => (hrest c hc).1)
  have hintloop : intLoop 0 (ds ++ (fr ++ rest)) = ((intLoop 0 ds).1, fr ++ rest) :=
    intLoop_append ds hds 0 _ hfrh
  rcases hsgn with rfl | rfl | rfl
  · have hq : ∀ c, (ds ++ (fr ++ rest)).head? = some c →
        c ≠ ' ' ∧ c ≠ '-' ∧ c ≠ '+' := by
      intro c hc
      cases ds with
      | cons d dtl =>
          rw [List.cons_append] at hc
          obtain rfl : d = c := by simpa using hc
          have h1 := isDigit_ne d (hds d (by simp))
          exact ⟨h1.1, h1.2.2.1, h1.2.1⟩
      | nil =>
          rw [List.nil_append] at hc
          rcases hfr with rfl | ⟨hfds, rfl⟩
          · rw [List.nil_append] at hc
            have h3 := (hrest c hc).2.2 ⟨rfl, rfl, rfl⟩
            exact ⟨h3.1, h3.2.2, h3.2.1⟩
          · rw [List.cons_append] at hc
            obtain rfl : '.' = c := by simpa using hc
            refine ⟨by decide, by decide, by decide⟩
    simp only [bfFromStr, List.nil_append]
    rw [dropWhile_spaces_append sp _ hsp,
      dropWhile_spaces_of_head _ (fun c hc => (hq c hc).1),
      signSplit_no_sign _ (fun c hc => ⟨(hq c hc).2.1, (hq c hc).2.2⟩)]
    dsimp only
    rw [hintloop]
    dsimp only
    rw [hfracseg]
    dsimp only
    simp
  · simp only [bfFromStr, List.singleton_append]
    rw [dropWhile_spaces_append sp _ hsp]
    rw [show ('+' :: (ds ++ (fr ++ rest))).dropWhile (· == ' ') =
      '+' :: (ds ++ (fr ++ rest)) from by
        rw [List.dropWhile_cons]
        simp]
    rw [show signSplit ('+' :: (ds ++ (fr ++ rest))) =
      (false, ds ++ (fr ++ rest)) from rfl]
    dsimp only
    rw [hintloop]
    dsimp only
    rw [hfracseg]
    dsimp only
    simp
  · simp only [bfFromStr, List.singleton_append]
    rw [dropWhile_spaces_append sp _ hsp]
    rw [show ('-' :: (ds ++ (fr ++ rest))).dropWhile (· == ' ') =
      '-' :: (ds ++ (fr ++ rest)) from by
        rw [List.dropWhile_cons]
        simp]
    rw [show signSplit ('-' :: (ds ++ (fr ++ rest))) =
      (true, ds ++ (fr ++ rest)) from rfl]
    dsimp only
    rw [hintloop]
    dsimp only
    rw [hfracseg]
    dsimp only
    simp

set_option maxRecDepth 2000 in
/-- C9 counterexample: the suffix `"-5"` begins with `'-'`, a non-digit,
non-`'.'` character, yet appending it to the (well-formed) empty string
changes the parsed value from `0` to `-5`: the sign slot of the prefix
grammar was still open, so the suffix extends the match. -/
theorem c9_counterexample_sign_suffix :
    bfFromStr ([] ++ ['-', '5']) 2 ≠ bfFromStr [] 2 := by
  with_unfolding_all decide

/-- C9 (amended): `bf_from_str` never reports an error, and appending a
suffix leaves the parsed value unchanged whenever the suffix's first
character cannot extend any still-open slot of the prefix grammar
`[spaces][sign][digits][. digits]`: it is a non-digit, it is not `'.'`
unless a fraction segment was already consumed, and when the consumed
prefix is spaces only it is none of `' '`, `'+'`, `'-'`. -/
theorem c9_suffix_invariance_amended
    (sp sgn ds fds fr rest : List Char) (n : ℕ)
    (hsp : ∀ c ∈ sp, c = ' ')
    (hsgn : sgn = [] ∨ sgn = ['+'] ∨ sgn = ['-'])
    (hds : ∀ c ∈ ds, isDigitCh c = true)
    (hfr : fr = [] ∨ ((∀ c ∈ fds, isDigitCh c = true) ∧ fr = '.' :: fds))
    (hrest : ∀ c, rest.head? = some c → isDigitCh c = false ∧
      (fr = [] → c ≠ '.') ∧
      (sgn = [] ∧ ds = [] ∧ fr = [] → c ≠ ' ' ∧ c ≠ '+' ∧ c ≠ '-')) :
    bfFromStr (sp ++ (sgn ++ (ds ++ (fr ++ rest)))) n =
      bfFromStr (sp ++ (sgn ++ (ds ++ fr))) n := by
  have h1 := bfFromStr_split sp sgn ds fds fr rest n hsp hsgn hds hfr hrest
  have h2 := bfFromStr_split sp sgn ds fds fr [] n hsp hsgn hds hfr
    (fun c hc => by simp at hc)
  rw [h1, ← h2, List.append_nil]

set_option maxRecDepth 2000 in
/-- Witness for `c9_suffix_invariance_amended`: appending `"x"` to
`" -1.5"` leaves the parsed value unchanged. -/
theorem c9_witness :
    bfFromStr [' ', '-', '1', '.', '5', 'x'] 2 = bfFromStr [' ', '-', '1', '.', '5'] 2 := by
  have h := c9_suffix_invariance_amended [' '] ['-'] ['1'] ['5'] ['.', '5'] ['x'] 2
    (by decide) (Or.inr (Or.inr rfl)) (by decide)
    (Or.inr ⟨by decide, rfl⟩)
    (by
      intro c hc
      simp only [List.head?] at hc
      obtain rfl : 'x' = c := by simpa using hc
      exact ⟨by decide, fun _ => by decide, fun hcon => nomatch hcon.1⟩)
  exact h
